import Mathlib

/-!
Verification of the snapshot read path and bucket materialization of the
stellar-core bucket subsystem (src/bucket/BucketListSnapshot.cpp,
src/bucket/BucketSnapshot.cpp, src/bucket/BucketOutputIterator.cpp), as a
shallow embedding in Lean 4.

Machine integers (uint32 protocol versions, int64 balances, size_t sizes)
are modelled as Nat/Int; none of the verified paths exercise overflow.
Fallible code paths (releaseAssert, thrown runtime errors, C++ undefined
behaviour such as dereferencing a past-the-end iterator) are modelled with
Except String.
-/

/-- Ledger key identity, mirroring LedgerKey with the LedgerEntryIdCmp order:
entries are compared by type tag first (ACCOUNT is the smallest tag, so
account keys sort before all others), then by body. Non-account keys carry
their type tag `t` (≥ ACCOUNT in the XDR enum) and body `k` abstractly. -/
inductive LedgerKey where
  | account (id : Nat)
  | other (t : Nat) (k : Nat)
deriving DecidableEq, Repr

/-- Strict LedgerEntryIdCmp order on keys: type tag first, then body. -/
def keyLt : LedgerKey → LedgerKey → Bool
  | .account i, .account j => i < j
  | .account _, .other _ _ => true
  | .other _ _, .account _ => false
  | .other t k, .other t' k' => t < t' || (t = t' && k < k')

/-- AccountEntry fields used by the inflation query. -/
structure AccountEntry where
  accountID : Nat
  balance : Int
  inflationDest : Option Nat
deriving DecidableEq, Repr

/-- LedgerEntry: either an account entry or a generic non-account entry
with type tag `t`, key body `k` and value `v`. -/
inductive LedgerEntry where
  | account (ae : AccountEntry)
  | other (t : Nat) (k : Nat) (v : Nat)
deriving DecidableEq, Repr

/-- The LedgerKey of a LedgerEntry (LedgerEntryKey). -/
def LedgerEntry.key : LedgerEntry → LedgerKey
  | .account ae => .account ae.accountID
  | .other t k _ => .other t k

/-- BucketMetadata: only the ledgerVersion field is consulted here. -/
structure BucketMetadata where
  ledgerVersion : Nat
deriving DecidableEq, Repr

/-- BucketEntry, the tagged record type of live-cascade bucket files. -/
inductive BucketEntry where
  | liveEntry (le : LedgerEntry)
  | initEntry (le : LedgerEntry)
  | deadEntry (k : LedgerKey)
  | metaEntry (m : BucketMetadata)
deriving DecidableEq, Repr

def BucketEntry.isDead : BucketEntry → Bool
  | .deadEntry _ => true
  | _ => false

def BucketEntry.isMeta : BucketEntry → Bool
  | .metaEntry _ => true
  | _ => false

def BucketEntry.isLive : BucketEntry → Bool
  | .liveEntry _ => true
  | _ => false

def BucketEntry.isInit : BucketEntry → Bool
  | .initEntry _ => true
  | _ => false

/-- The identity (LedgerKey) of a BucketEntry; META entries have none. -/
def BucketEntry.entryKey : BucketEntry → Option LedgerKey
  | .liveEntry le => some le.key
  | .initEntry le => some le.key
  | .deadEntry k => some k
  | .metaEntry _ => none

/-- The liveEntry() XDR-union accessor: meaningful for LIVEENTRY/INITENTRY;
on other arms C++ access is unchecked, modelled by a junk value. -/
def BucketEntry.liveData : BucketEntry → LedgerEntry
  | .liveEntry le => le
  | .initEntry le => le
  | .deadEntry _ => .other 0 0 0
  | .metaEntry _ => .other 0 0 0

/-- BucketEntryIdCmp: METAENTRY sorts before every data entry (two metas are
equivalent), data entries compare by their LedgerKey. -/
def entryLtB (a b : BucketEntry) : Bool :=
  match a.entryKey, b.entryKey with
  | none, none => false
  | none, some _ => true
  | some _, none => false
  | some ka, some kb => keyLt ka kb

-- Basic order lemmas for keyLt / entryLtB.

theorem keyLt_irrefl (a : LedgerKey) : keyLt a a = false := by
  cases a <;> simp [keyLt]

theorem keyLt_trans {a b c : LedgerKey} (h1 : keyLt a b = true)
    (h2 : keyLt b c = true) : keyLt a c = true := by
  cases a <;> cases b <;> cases c <;>
    simp_all [keyLt] <;> omega

theorem keyLt_asymm {a b : LedgerKey} (h : keyLt a b = true) :
    keyLt b a = false := by
  cases a <;> cases b <;> simp_all [keyLt] <;> omega

theorem keyLt_total_eq {a b : LedgerKey} (h1 : keyLt a b = false)
    (h2 : keyLt b a = false) : a = b := by
  cases a <;> cases b <;> simp_all [keyLt] <;> omega

theorem entryLtB_trans {a b c : BucketEntry} (h1 : entryLtB a b = true)
    (h2 : entryLtB b c = true) : entryLtB a c = true := by
  unfold entryLtB at *
  cases ha : a.entryKey <;> cases hb : b.entryKey <;> cases hc : c.entryKey <;>
    simp_all
  exact keyLt_trans h1 h2

theorem entryLtB_keys_eq {b e : BucketEntry} (h1 : entryLtB b e = false)
    (h2 : entryLtB e b = false) : b.entryKey = e.entryKey := by
  unfold entryLtB at *
  cases hb : b.entryKey <;> cases he : e.entryKey <;> simp_all
  exact keyLt_total_eq h1 h2

theorem entryLtB_congr_right {r b e : BucketEntry}
    (hrb : entryLtB r b = true) (hk : b.entryKey = e.entryKey) :
    entryLtB r e = true := by
  unfold entryLtB at *
  cases hr : r.entryKey <;> cases hb : b.entryKey <;> simp_all

/-! ### BucketSnapshot (src/bucket/BucketSnapshot.cpp)

A snapshot wraps one immutable bucket: the file's records `entries` in file
order, the bucket's index (its `lookup(key) → Option offset` function and
its page size). Offsets are record indices into `entries` and a page is
modelled as a window of `pageSize` records starting at the offset (the C++
page is a byte window of the same shape). -/

structure BucketSnapshot where
  entries : List BucketEntry
  lookup : LedgerKey → Option Nat
  pageSize : Nat

/-- Bucket::isEmpty — an empty bucket has no file, hence no records. -/
def BucketSnapshot.isEmpty (b : BucketSnapshot) : Bool :=
  b.entries.isEmpty

/-- XDRInputFileStream::readPage, modelled from the spec: read records within
the page starting at `pos`, looking for one whose identity equals `k`. -/
def readPage (entries : List BucketEntry) (pos pageSize : Nat)
    (k : LedgerKey) : Option BucketEntry :=
  ((entries.drop pos).take pageSize).find? (fun e => e.entryKey == some k)

/-- BucketSnapshot::getEntryAtOffset. Returns the entry read (if any) and the
number of markBloomMiss calls made (0 or 1): with pageSize 0 a single record
is read at the offset with no key check; with pageSize > 0 the page is
searched for the key; a failed read marks a bloom miss. -/
def BucketSnapshot.getEntryAtOffset (b : BucketSnapshot) (k : LedgerKey)
    (pos pageSize : Nat) : Option BucketEntry × Nat :=
  if b.isEmpty then (none, 0)
  else if pageSize = 0 then
    match b.entries[pos]? with
    | some be => (some be, 0)
    | none => (none, 1)
  else
    match readPage b.entries pos pageSize k with
    | some be => (some be, 0)
    | none => (none, 1)

/-- BucketSnapshot::getBucketEntry, instrumented with the bloom-miss count. -/
def BucketSnapshot.getBucketEntryM (b : BucketSnapshot) (k : LedgerKey) :
    Option BucketEntry × Nat :=
  if b.isEmpty then (none, 0)
  else
    match b.lookup k with
    | some pos => b.getEntryAtOffset k pos b.pageSize
    | none => (none, 0)

/-- BucketSnapshot::getBucketEntry (the returned optional entry). -/
def BucketSnapshot.getBucketEntry (b : BucketSnapshot) (k : LedgerKey) :
    Option BucketEntry :=
  (b.getBucketEntryM k).1

/-- The logical content of a bucket at a key: the first record whose
identity is `k`. -/
def BucketSnapshot.findKey (b : BucketSnapshot) (k : LedgerKey) :
    Option BucketEntry :=
  b.entries.find? (fun e => e.entryKey == some k)

/-- An exact index: single-record pages, and lookup returns the position of
the first record with the requested identity (no bloom false positives). -/
def BucketSnapshot.Exact (b : BucketSnapshot) : Prop :=
  b.pageSize = 0 ∧
    ∀ k, b.lookup k = b.entries.findIdx? (fun e => e.entryKey == some k)

/-- Bucket constructor used by concrete test snapshots: the index is exact
by construction. -/
def mkBucket (es : List BucketEntry) : BucketSnapshot :=
  { entries := es
    lookup := fun k => es.findIdx? (fun e => e.entryKey == some k)
    pageSize := 0 }

theorem mkBucket_exact (es : List BucketEntry) : (mkBucket es).Exact :=
  ⟨rfl, fun _ => rfl⟩

theorem findIdx?_getElem_find? (p : BucketEntry → Bool)
    (l : List BucketEntry) :
    (match l.findIdx? p with
     | some i => l[i]?
     | none => none) = l.find? p := by
  induction l with
  | nil => simp
  | cons a t ih =>
    by_cases h : p a
    · simp [List.findIdx?_cons, h]
    · simp only [List.findIdx?_cons, h, cond_false, List.find?_cons,
        Option.map_eq_map]
      cases ht : t.findIdx? p with
      | none => simp [ht] at ih ⊢; simpa [h] using ih
      | some i => simp [ht] at ih ⊢; simpa [h] using ih

/-- Under an exact index, getBucketEntry is exactly the logical lookup. -/
theorem getBucketEntry_exact {b : BucketSnapshot} (hb : b.Exact)
    (k : LedgerKey) : b.getBucketEntry k = b.findKey k := by
  obtain ⟨hp, hl⟩ := hb
  unfold BucketSnapshot.getBucketEntry BucketSnapshot.getBucketEntryM
  by_cases he : b.isEmpty
  · simp [he, BucketSnapshot.findKey]
    have : b.entries = [] := by
      simpa [BucketSnapshot.isEmpty, List.isEmpty_iff] using he
    simp [this]
  · have key := findIdx?_getElem_find? (fun e => e.entryKey == some k) b.entries
    simp only [he, if_false, hl k, hp]
    cases hidx : b.entries.findIdx? (fun e => e.entryKey == some k) with
    | none =>
      rw [hidx] at key
      simp [BucketSnapshot.findKey, ← key]
    | some i =>
      rw [hidx] at key
      simp only [BucketSnapshot.getEntryAtOffset, he, if_false, if_pos rfl]
      rw [BucketSnapshot.findKey, ← key]
      cases hget : b.entries[i]? with
      | none => simp [hget]
      | some be => simp [hget]

/-! ### BucketListSnapshot and the level-traversal loop
(src/bucket/BucketListSnapshot.cpp) -/

/-- BucketLevelSnapshot: the two buckets of one level. -/
structure BucketLevelSnapshot where
  curr : BucketSnapshot
  snap : BucketSnapshot

/-- BucketListSnapshot: the immutable vector of levels. -/
structure BucketListSnapshot where
  levels : List BucketLevelSnapshot

/-- The traversal order of SearchableBucketListSnapshot::loopAllBuckets:
levels[0].curr, levels[0].snap, levels[1].curr, ... -/
def BucketListSnapshot.allBuckets (bl : BucketListSnapshot) :
    List BucketSnapshot :=
  bl.levels.flatMap (fun lev => [lev.curr, lev.snap])

/-- The visitor loop of loopAllBuckets over an explicit bucket list: empty
buckets are skipped; the visitor returns the updated state and whether to
exit the loop early. -/
def loopBuckets {σ : Type} (f : σ → BucketSnapshot → σ × Bool) :
    List BucketSnapshot → σ → σ
  | [], s => s
  | b :: rest, s =>
    if b.isEmpty then loopBuckets f rest s
    else
      match f s b with
      | (s2, true) => s2
      | (s2, false) => loopBuckets f rest s2

/-- SearchableBucketListSnapshot::loopAllBuckets. -/
def SearchableBucketListSnapshot.loopAllBuckets {σ : Type}
    (bl : BucketListSnapshot) (f : σ → BucketSnapshot → σ × Bool)
    (init : σ) : σ :=
  loopBuckets f bl.allBuckets init

/-- SearchableBucketListSnapshot::getLedgerEntryInternal: the visitor stores
the decision in `result` and stops at the first bucket yielding an entry. -/
def SearchableBucketListSnapshot.getLedgerEntryInternal
    (bl : BucketListSnapshot) (k : LedgerKey) : Option LedgerEntry :=
  SearchableBucketListSnapshot.loopAllBuckets bl
    (fun result b =>
      match b.getBucketEntry k with
      | some be => (if be.isDead then none else some be.liveData, true)
      | none => (result, false))
    none

/-- The walk described by claim C1: the first non-empty bucket in traversal
order whose lookup yields an entry for `k` decides: DeadEntry gives None,
LiveEntry/InitEntry gives the entry's value; otherwise None. -/
def firstBucketDecision (k : LedgerKey) :
    List BucketSnapshot → Option LedgerEntry
  | [] => none
  | b :: rest =>
    if b.isEmpty then firstBucketDecision k rest
    else
      match b.getBucketEntry k with
      | some (.deadEntry _) => none
      | some (.liveEntry le) => some le
      | some (.initEntry le) => some le
      | some (.metaEntry _) => none
      | none => firstBucketDecision k rest

/-- Under an exact index a yielded entry always carries the looked-up key
(so in particular it is never a META entry). -/
theorem getBucketEntry_key {b : BucketSnapshot} (hb : b.Exact)
    {k : LedgerKey} {be : BucketEntry} (h : b.getBucketEntry k = some be) :
    be.entryKey = some k := by
  rw [getBucketEntry_exact hb] at h
  have := List.find?_some h
  simpa using this

theorem getLedgerEntryInternal_loop (k : LedgerKey)
    (bs : List BucketSnapshot)
    (hex : ∀ b ∈ bs, b.Exact) :
    loopBuckets
      (fun result b =>
        match b.getBucketEntry k with
        | some be => (if be.isDead then none else some be.liveData, true)
        | none => (result, false))
      bs none = firstBucketDecision k bs := by
  induction bs with
  | nil => rfl
  | cons b rest ih =>
    have hb : b.Exact := hex b (by simp)
    have hrest : ∀ b2 ∈ rest, b2.Exact := fun b2 h2 => hex b2 (by simp [h2])
    by_cases he : b.isEmpty
    · simp [loopBuckets, firstBucketDecision, he, ih hrest]
    · cases hget : b.getBucketEntry k with
      | none => simp [loopBuckets, firstBucketDecision, he, hget, ih hrest]
      | some be =>
        have hkey := getBucketEntry_key hb hget
        cases be with
        | deadEntry dk =>
          simp [loopBuckets, firstBucketDecision, he, hget, BucketEntry.isDead]
        | liveEntry le =>
          simp [loopBuckets, firstBucketDecision, he, hget,
            BucketEntry.isDead, BucketEntry.liveData]
        | initEntry le =>
          simp [loopBuckets, firstBucketDecision, he, hget,
            BucketEntry.isDead, BucketEntry.liveData]
        | metaEntry m => simp [BucketEntry.entryKey] at hkey

/-- C1: For every snapshot and every key k, get_entry(k) is decided by the
first non-empty bucket, in the order levels[0].curr, levels[0].snap,
levels[1].curr, ..., whose lookup yields an entry for k: if that entry is a
DeadEntry the result is None and the walk stops; if it is a LiveEntry or
InitEntry the result is Some of that entry's value and the walk stops; if no
bucket yields an entry for k the result is None. (Stated for snapshots whose
bucket indices are exact, so that a yielded entry is an entry for k.) -/
theorem c1_get_entry_first_bucket_decides (bl : BucketListSnapshot)
    (k : LedgerKey) (hex : ∀ b ∈ bl.allBuckets, b.Exact) :
    SearchableBucketListSnapshot.getLedgerEntryInternal bl k =
      firstBucketDecision k bl.allBuckets := by
  unfold SearchableBucketListSnapshot.getLedgerEntryInternal
    SearchableBucketListSnapshot.loopAllBuckets
  exact getLedgerEntryInternal_loop k bl.allBuckets hex

/-- Demo snapshot: L0.curr = [Dead(acct 7)], L0.snap empty,
L1.curr = [Live(acct 7)], L1.snap = [Live(other 1 3)]. -/
def demoSnapC1 : BucketListSnapshot :=
  { levels :=
      [ { curr := mkBucket [.deadEntry (.account 7)]
          snap := mkBucket [] }
      , { curr := mkBucket
            [.liveEntry (.account { accountID := 7, balance := 5,
                                    inflationDest := none })]
          snap := mkBucket [.liveEntry (.other 1 3 44)] } ] }

theorem c1_get_entry_first_bucket_decides_witness :
    SearchableBucketListSnapshot.getLedgerEntryInternal demoSnapC1
        (.account 7) = firstBucketDecision (.account 7)
        demoSnapC1.allBuckets ∧
      SearchableBucketListSnapshot.getLedgerEntryInternal demoSnapC1
        (.account 7) = none ∧
      SearchableBucketListSnapshot.getLedgerEntryInternal demoSnapC1
        (.other 1 3) = some (.other 1 3 44) := by
  refine ⟨?_, by decide, by decide⟩
  apply c1_get_entry_first_bucket_decides
  intro b hb
  simp [demoSnapC1, BucketListSnapshot.allBuckets, List.flatMap] at hb
  rcases hb with h | h | h | h <;> rw [h] <;> exact mkBucket_exact _

/-- C10: For every key k on a non-empty bucket whose index has page_size 0,
if lookup(k) returns an offset then getBucketEntry(k) returns whatever
single record is successfully decoded at that offset without checking that
the record's identity equals k, and the bloom-miss counter is bumped only
when the read itself fails; so a spurious index offset yields a wrong entry
rather than None, and the key-equality check exists only on the
page_size > 0 path (where any returned entry carries the looked-up key). -/
theorem c10_page_size_zero_skips_key_check :
    (∀ (b : BucketSnapshot) (k : LedgerKey) (pos : Nat),
        b.isEmpty = false → b.pageSize = 0 → b.lookup k = some pos →
        (∀ be, b.entries[pos]? = some be →
            b.getBucketEntryM k = (some be, 0)) ∧
          (b.entries[pos]? = none → b.getBucketEntryM k = (none, 1))) ∧
      (∀ (b : BucketSnapshot) (k : LedgerKey) (be : BucketEntry),
          0 < b.pageSize → b.getBucketEntry k = some be →
          be.entryKey = some k) := by
  constructor
  · intro b k pos hne hps hlk
    constructor
    · intro be hbe
      simp [BucketSnapshot.getBucketEntryM, hne, hlk,
        BucketSnapshot.getEntryAtOffset, hps, hbe]
    · intro hbe
      simp [BucketSnapshot.getBucketEntryM, hne, hlk,
        BucketSnapshot.getEntryAtOffset, hps, hbe]
  · intro b k be hps hbe
    unfold BucketSnapshot.getBucketEntry BucketSnapshot.getBucketEntryM at hbe
    by_cases hne : b.isEmpty
    · simp [hne] at hbe
    · simp only [hne, if_false] at hbe
      cases hlk : b.lookup k with
      | none => simp [hlk] at hbe
      | some pos =>
        rw [hlk] at hbe
        unfold BucketSnapshot.getEntryAtOffset at hbe
        have hps0 : ¬(b.pageSize = 0) := by omega
        simp only [hne, if_false, hps0] at hbe
        cases hrp : readPage b.entries pos b.pageSize k with
        | none => rw [hrp] at hbe; simp at hbe
        | some be2 =>
          rw [hrp] at hbe
          simp at hbe
          subst hbe
          have := List.find?_some hrp
          simpa using this

/-- A bucket whose index returns a spurious offset for every key. -/
def demoSpuriousBucket : BucketSnapshot :=
  { entries := [.liveEntry (.other 2 9 77)]
    lookup := fun _ => some 0
    pageSize := 0 }

theorem c10_page_size_zero_skips_key_check_witness :
    demoSpuriousBucket.getBucketEntryM (.account 1) =
        (some (.liveEntry (.other 2 9 77)), 0) ∧
      (BucketEntry.liveEntry (.other 2 9 77)).entryKey ≠
        some (.account 1) := by
  refine ⟨?_, by decide⟩
  exact (c10_page_size_zero_skips_key_check.1 demoSpuriousBucket
    (.account 1) 0 (by decide) rfl rfl).1 _ rfl

/-! ### BucketOutputIterator (src/bucket/BucketOutputIterator.cpp)

The write-side merge sink, instantiated for LiveBucket. The output file is
modelled as the list of records written so far; byte counts use a fixed
per-record XDR size. -/

/-- Modelled from the spec: LiveBucket::FIRST_PROTOCOL_SUPPORTING_INITENTRY_AND_METAENTRY
(the constant lives outside src/; only its ordering against ledger versions
matters here). -/
def FIRST_PROTOCOL_SUPPORTING_INITENTRY_AND_METAENTRY : Nat := 11

/-- Modelled from the spec: LiveBucket::FIRST_PROTOCOL_CONVERTING_BOTTOM_LEVEL_LIVE_TO_INIT. -/
def FIRST_PROTOCOL_CONVERTING_BOTTOM_LEVEL_LIVE_TO_INIT : Nat := 23

/-- Modelled from the spec: the size in bytes of one length-prefixed
serialized record (xdr::xdr_size of a BucketEntry); the exact values are
immaterial, positivity is what the byte accounting uses. -/
def xdrSizeBucketEntry : BucketEntry → Nat
  | .liveEntry _ => 40
  | .initEntry _ => 40
  | .deadEntry _ => 24
  | .metaEntry _ => 16

/-- LiveBucket::isTombstoneEntry, modelled from the spec: DEADENTRY is the
tombstone of the live cascade. -/
def isTombstoneEntry (e : BucketEntry) : Bool :=
  e.isDead

/-- LiveBucket::checkProtocolLegality, modelled from the spec: INITENTRY and
METAENTRY are only legal from the first protocol supporting them. -/
def checkProtocolLegality (e : BucketEntry) (ledgerVersion : Nat) :
    Except String Unit :=
  if (e.isInit || e.isMeta) &&
      ledgerVersion < FIRST_PROTOCOL_SUPPORTING_INITENTRY_AND_METAENTRY then
    .error "unsupported entry type for protocol version"
  else .ok ()

/-- The MergeCounters fields touched by BucketOutputIterator. -/
structure MergeCounters where
  mOutputIteratorTombstoneElisions : Nat
  mOutputIteratorActualWrites : Nat
  mOutputIteratorBufferUpdates : Nat
  mOutputIteratorLiveToInitRewrites : Nat
deriving DecidableEq, Repr

/-- BucketOutputIterator<LiveBucket> state. `file` is the sequence of
records written to the output file so far. -/
structure BucketOutputIterator where
  file : List BucketEntry
  mBuf : Option BucketEntry
  mKeepTombstoneEntries : Bool
  mMeta : BucketMetadata
  mPutMeta : Bool
  mObjectsPut : Nat
  mBytesPut : Nat
  mc : MergeCounters
deriving DecidableEq, Repr

/-- mOut.writeOne(b, &mHasher, &mBytesPut) followed by mObjectsPut++. -/
def BucketOutputIterator.writeOne (s : BucketOutputIterator)
    (b : BucketEntry) : BucketOutputIterator :=
  { s with
    file := s.file ++ [b]
    mBytesPut := s.mBytesPut + xdrSizeBucketEntry b
    mObjectsPut := s.mObjectsPut + 1 }

/-- The condition of put's bottom-level live-to-init rewrite branch:
keep_tombstones = false (lowest level), a LIVEENTRY, and a protocol at or
above the rewrite threshold. -/
def BucketOutputIterator.rewriteCond (s : BucketOutputIterator)
    (e : BucketEntry) : Bool :=
  !s.mKeepTombstoneEntries && e.isLive &&
    decide (FIRST_PROTOCOL_CONVERTING_BOTTOM_LEVEL_LIVE_TO_INIT ≤
      s.mMeta.ledgerVersion)

/-- The entry actually installed into mBuf by put: on the rewrite branch a
LIVEENTRY becomes an INITENTRY with the same LedgerEntry payload. -/
def BucketOutputIterator.installedEntry (s : BucketOutputIterator)
    (e : BucketEntry) : BucketEntry :=
  if s.rewriteCond e then .initEntry e.liveData else e

/-- put's counter bump for the flush of the buffered entry. -/
def BucketOutputIterator.bumpActualWrites (s : BucketOutputIterator) :
    BucketOutputIterator :=
  { s with
    mc := { s.mc with
            mOutputIteratorActualWrites :=
              s.mc.mOutputIteratorActualWrites + 1 } }

/-- Installing `inst` into mBuf, counting a buffer update and, when the
rewrite branch was taken, a live-to-init rewrite. -/
def BucketOutputIterator.installBuf (s : BucketOutputIterator)
    (inst : BucketEntry) (rewritten : Bool) : BucketOutputIterator :=
  { s with
    mBuf := some inst
    mc := { s.mc with
            mOutputIteratorBufferUpdates :=
              s.mc.mOutputIteratorBufferUpdates + 1
            mOutputIteratorLiveToInitRewrites :=
              s.mc.mOutputIteratorLiveToInitRewrites +
                (if rewritten then 1 else 0) } }

/-- BucketOutputIterator::put (LiveBucket instantiation). releaseAssert
and thrown runtime errors are modelled as Except.error. -/
def BucketOutputIterator.put (s : BucketOutputIterator) (e : BucketEntry) :
    Except String BucketOutputIterator :=
  match checkProtocolLegality e s.mMeta.ledgerVersion with
  | .error msg => .error msg
  | .ok _ =>
    if e.isMeta && s.mPutMeta then
      .error "putting META entry in bucket after initial entry"
    else if !s.mKeepTombstoneEntries && isTombstoneEntry e then
      .ok { s with
            mc := { s.mc with
                    mOutputIteratorTombstoneElisions :=
                      s.mc.mOutputIteratorTombstoneElisions + 1 } }
    else
      match s.mBuf with
      | some b =>
        if entryLtB e b then
          .error "releaseAssert failed: put entry out of order"
        else if entryLtB b e then
          .ok (((s.writeOne b).bumpActualWrites).installBuf
            (s.installedEntry e) (s.rewriteCond e))
        else
          .ok (s.installBuf (s.installedEntry e) (s.rewriteCond e))
      | none =>
        .ok (s.installBuf (s.installedEntry e) (s.rewriteCond e))

/-- The iterator state right after opening the output file. -/
def freshOutputIterator (keepTombstoneEntries : Bool)
    (meta : BucketMetadata) : BucketOutputIterator :=
  { file := []
    mBuf := none
    mKeepTombstoneEntries := keepTombstoneEntries
    mMeta := meta
    mPutMeta := false
    mObjectsPut := 0
    mBytesPut := 0
    mc := ⟨0, 0, 0, 0⟩ }

/-- BucketOutputIterator constructor (LiveBucket): open the file and, when
the protocol supports metadata, put the META entry first and record that. -/
def mkLiveOutputIterator (keepTombstoneEntries : Bool)
    (meta : BucketMetadata) : Except String BucketOutputIterator :=
  if FIRST_PROTOCOL_SUPPORTING_INITENTRY_AND_METAENTRY ≤
      meta.ledgerVersion then
    match (freshOutputIterator keepTombstoneEntries meta).put
        (.metaEntry meta) with
    | .error msg => .error msg
    | .ok s1 => .ok { s1 with mPutMeta := true }
  else .ok (freshOutputIterator keepTombstoneEntries meta)

/-- A sequence of put calls. -/
def putMany (s : BucketOutputIterator) :
    List BucketEntry → Except String BucketOutputIterator
  | [] => .ok s
  | e :: rest =>
    match s.put e with
    | .error msg => .error msg
    | .ok s2 => putMany s2 rest

/-- The observable outcome of BucketOutputIterator::getBucket: whether the
tempfile was deleted, whether noteEmptyMergeOutput was called (it is called
exactly when a merge key was provided on the empty path), the bucket handed
back (none = the default-constructed empty-bucket sentinel, some records =
the adopted file), and the final counters. -/
structure GetBucketResult where
  deletedFile : Bool
  notedEmptyMergeOutput : Bool
  bucket : Option (List BucketEntry)
  finalObjectsPut : Nat
  finalBytesPut : Nat
deriving DecidableEq, Repr

/-- BucketOutputIterator::getBucket. -/
def BucketOutputIterator.getBucket (s : BucketOutputIterator)
    (hasMergeKey : Bool) : Except String GetBucketResult :=
  let s1 :=
    match s.mBuf with
    | some b => { s.writeOne b with mBuf := none }
    | none => s
  if s1.mObjectsPut == 0 || s1.mBytesPut == 0 then
    if s1.mObjectsPut == 0 && s1.mBytesPut == 0 then
      .ok { deletedFile := true
            notedEmptyMergeOutput := hasMergeKey
            bucket := none
            finalObjectsPut := s1.mObjectsPut
            finalBytesPut := s1.mBytesPut }
    else .error "releaseAssert failed: empty bucket accounting"
  else
    .ok { deletedFile := false
          notedEmptyMergeOutput := false
          bucket := some s1.file
          finalObjectsPut := s1.mObjectsPut
          finalBytesPut := s1.mBytesPut }

-- Helper lemmas about put.

theorem installedEntry_key (s : BucketOutputIterator) (e : BucketEntry) :
    (s.installedEntry e).entryKey = e.entryKey := by
  unfold BucketOutputIterator.installedEntry
  split
  case isTrue h =>
    unfold BucketOutputIterator.rewriteCond at h
    cases e <;>
      simp_all [BucketEntry.isLive, BucketEntry.entryKey,
        BucketEntry.liveData]
  case isFalse h => rfl

theorem put_config {s s' : BucketOutputIterator} {e : BucketEntry}
    (h : s.put e = .ok s') :
    s'.mKeepTombstoneEntries = s.mKeepTombstoneEntries ∧
      s'.mMeta = s.mMeta ∧ s'.mPutMeta = s.mPutMeta := by
  unfold BucketOutputIterator.put at h
  split at h
  · simp at h
  · split at h
    · simp at h
    · split at h
      · simp only [Except.ok.injEq] at h
        subst h; exact ⟨rfl, rfl, rfl⟩
      · split at h
        · split at h
          · simp at h
          · split at h <;>
              (simp only [Except.ok.injEq] at h; subst h;
               exact ⟨rfl, rfl, rfl⟩)
        · simp only [Except.ok.injEq] at h
          subst h; exact ⟨rfl, rfl, rfl⟩

/-- Case analysis of a successful put: either the entry was elided as a
bottom-level tombstone (state unchanged up to counters), or it was
installed into mBuf, possibly after flushing a strictly smaller buffered
entry to the file. -/
theorem put_ok_shape {s s' : BucketOutputIterator} {e : BucketEntry}
    (h : s.put e = .ok s') :
    (s'.file = s.file ∧ s'.mBuf = s.mBuf) ∨
      ((s.mKeepTombstoneEntries = false → e.isDead = false) ∧
        s'.mBuf = some (s.installedEntry e) ∧
        ((s.mBuf = none ∧ s'.file = s.file) ∨
          (∃ b, s.mBuf = some b ∧ entryLtB e b = false ∧
            ((entryLtB b e = true ∧ s'.file = s.file ++ [b]) ∨
              (entryLtB b e = false ∧ s'.file = s.file))))) := by
  unfold BucketOutputIterator.put at h
  split at h
  · simp at h
  · split at h
    · simp at h
    · split at h
      case isTrue helide =>
        simp only [Except.ok.injEq] at h
        subst h
        exact .inl ⟨rfl, rfl⟩
      case isFalse helide =>
        have hdead : s.mKeepTombstoneEntries = false → e.isDead = false := by
          intro hk
          by_contra hd
          simp only [Bool.not_eq_false] at hd
          exact helide (by simp [hk, isTombstoneEntry, hd])
        split at h
        next b heq =>
          split at h
          · simp at h
          case isFalse hlt1 =>
            split at h
            case isTrue hlt2 =>
              simp only [Except.ok.injEq] at h
              subst h
              refine .inr ⟨hdead, rfl, .inr ⟨b, heq, ?_, .inl ⟨hlt2, rfl⟩⟩⟩
              simpa using hlt1
            case isFalse hlt2 =>
              simp only [Except.ok.injEq] at h
              subst h
              refine .inr ⟨hdead, rfl, .inr ⟨b, heq, ?_, .inr ⟨?_, rfl⟩⟩⟩
              · simpa using hlt1
              · simpa using hlt2
        next heq =>
          simp only [Except.ok.injEq] at h
          subst h
          exact .inr ⟨hdead, rfl, .inl ⟨heq, rfl⟩⟩

/-- C5 (amended): finalize on an iterator with zero non-meta put calls
deletes the file, notifies the manager iff a merge key was provided, and
returns the empty-bucket sentinel with bytes_put = objects_put = 0 —
provided meta.ledger_version is below
FIRST_PROTOCOL_SUPPORTING_INITENTRY_AND_METAENTRY, so that no META header
was buffered at construction. (When the header is written, finalize flushes
the buffered META entry, objects_put becomes 1 and a one-record bucket is
returned; see the counterexample.) -/
theorem c5_finalize_empty_below_meta_protocol (keep hk : Bool)
    (meta : BucketMetadata) (s0 : BucketOutputIterator)
    (h : meta.ledgerVersion <
      FIRST_PROTOCOL_SUPPORTING_INITENTRY_AND_METAENTRY)
    (hmk : mkLiveOutputIterator keep meta = .ok s0) :
    s0.getBucket hk =
      .ok { deletedFile := true
            notedEmptyMergeOutput := hk
            bucket := none
            finalObjectsPut := 0
            finalBytesPut := 0 } := by
  unfold mkLiveOutputIterator at hmk
  rw [if_neg (by omega)] at hmk
  simp only [Except.ok.injEq] at hmk
  subst hmk
  rfl

theorem c5_finalize_empty_below_meta_protocol_witness :
    (10 : Nat) < FIRST_PROTOCOL_SUPPORTING_INITENTRY_AND_METAENTRY ∧
      (freshOutputIterator false ⟨10⟩).getBucket true =
        .ok { deletedFile := true
              notedEmptyMergeOutput := true
              bucket := none
              finalObjectsPut := 0
              finalBytesPut := 0 } :=
  ⟨by decide,
    c5_finalize_empty_below_meta_protocol false true ⟨10⟩
      (freshOutputIterator false ⟨10⟩) (by decide) rfl⟩

/-- C5 counterexample: with meta.ledger_version at the meta-supporting
protocol and zero non-meta put calls, finalize flushes the buffered META
header: the file is not deleted, the manager is not notified even though a
merge key was provided, objects_put is 1, and a one-record (META-only)
bucket is returned — contradicting the claim's universal statement. -/
theorem c5_counterexample_meta_header_written :
    Except.bind (mkLiveOutputIterator true ⟨11⟩)
        (fun s => s.getBucket true) =
      .ok { deletedFile := false
            notedEmptyMergeOutput := false
            bucket := some [.metaEntry ⟨11⟩]
            finalObjectsPut := 1
            finalBytesPut := 16 } := by
  rfl

theorem entryLtB_asymm {a b : BucketEntry} (h : entryLtB a b = true) :
    entryLtB b a = false := by
  unfold entryLtB at *
  cases ha : a.entryKey <;> cases hb : b.entryKey <;> simp_all
  exact keyLt_asymm h

/-- The sortedness invariant of the output iterator: the records on file
followed by the buffered entry are strictly ascending under
BucketEntryIdCmp, and the buffer is only empty while the file is. -/
def OutIterSorted (s : BucketOutputIterator) : Prop :=
  List.Pairwise (fun a b => entryLtB a b = true) (s.file ++ s.mBuf.toList) ∧
    (s.mBuf = none → s.file = [])

theorem put_preserves_sorted {s s' : BucketOutputIterator}
    {e : BucketEntry} (h : s.put e = .ok s') (hs : OutIterSorted s) :
    OutIterSorted s' := by
  obtain ⟨hpair, hempty⟩ := hs
  rcases put_ok_shape h with ⟨hf, hb⟩ | ⟨hdead, hbuf', hcase⟩
  · exact ⟨by rw [hf, hb]; exact hpair,
      fun hn => by rw [hf]; exact hempty (hb ▸ hn)⟩
  · refine ⟨?_, fun hn => by rw [hbuf'] at hn; cases hn⟩
    rcases hcase with ⟨hnone, hfile⟩ | ⟨w, hsome, hlt_eb, hsub⟩
    · have : s.file = [] := hempty hnone
      rw [hfile, hbuf', this]
      simp
    · rw [hsome] at hpair
      simp only [Option.toList_some] at hpair
      rcases hsub with ⟨hlt_be, hfile⟩ | ⟨hlt_be, hfile⟩
      · -- flush: file' = file ++ [w], buf' = installed e
        have hkey : BucketEntry.entryKey (s.installedEntry e) =
            e.entryKey := installedEntry_key s e
        have hbinst : entryLtB w (s.installedEntry e) = true :=
          entryLtB_congr_right hlt_be hkey.symm
        rw [hfile, hbuf']
        simp only [Option.toList_some, List.append_assoc,
          List.singleton_append]
        rw [List.pairwise_append] at hpair ⊢
        obtain ⟨hp1, hp2, hp3⟩ := hpair
        refine ⟨hp1, ?_, ?_⟩
        · simp only [List.pairwise_cons]
          refine ⟨?_, by simp⟩
          intro x hx
          simp only [List.mem_cons, List.not_mem_nil, or_false] at hx
          subst hx
          exact hbinst
        · intro a ha c hc
          simp only [List.mem_cons, List.not_mem_nil, or_false] at hc
          rcases hc with hc | hc
          · rw [hc]; exact hp3 a ha w (by simp)
          · rw [hc]; exact entryLtB_trans (hp3 a ha w (by simp)) hbinst
      · -- replace in place: file' = file, buf' = installed e
        have hkeq : w.entryKey = e.entryKey := entryLtB_keys_eq hlt_be hlt_eb
        have hkey : BucketEntry.entryKey (s.installedEntry e) =
            e.entryKey := installedEntry_key s e
        rw [hfile, hbuf']
        simp only [Option.toList_some]
        rw [List.pairwise_append] at hpair ⊢
        obtain ⟨hp1, hp2, hp3⟩ := hpair
        refine ⟨hp1, by simp, ?_⟩
        intro a ha c hc
        simp only [List.mem_cons, List.not_mem_nil, or_false] at hc
        subst hc
        have hab : entryLtB a w = true := hp3 a ha w (by simp)
        exact entryLtB_congr_right hab (hkeq.trans hkey.symm)

theorem mk_sorted {keep : Bool} {meta : BucketMetadata}
    {s0 : BucketOutputIterator}
    (h : mkLiveOutputIterator keep meta = .ok s0) : OutIterSorted s0 := by
  unfold mkLiveOutputIterator at h
  split at h
  · cases hput : (freshOutputIterator keep meta).put (.metaEntry meta) with
    | error msg => rw [hput] at h; simp at h
    | ok s1 =>
      rw [hput] at h
      simp only [Except.ok.injEq] at h
      subst h
      rcases put_ok_shape hput with ⟨hf, hb⟩ | ⟨hdead, hbuf', hcase⟩
      · constructor
        · show List.Pairwise _ (s1.file ++ s1.mBuf.toList)
          rw [hf, hb]
          simp [freshOutputIterator]
        · intro _
          show s1.file = []
          rw [hf]; rfl
      · rcases hcase with ⟨hnone, hfile⟩ | ⟨b, hsome, _, _⟩
        · constructor
          · show List.Pairwise _ (s1.file ++ s1.mBuf.toList)
            rw [hfile, hbuf']
            simp [freshOutputIterator]
          · intro hn
            show s1.file = []
            rw [hbuf'] at hn; cases hn
        · exact absurd hsome (by simp [freshOutputIterator])
  · simp only [Except.ok.injEq] at h
    subst h
    exact ⟨by simp [freshOutputIterator], fun _ => rfl⟩

theorem putMany_preserves_sorted {es : List BucketEntry} :
    ∀ {s s' : BucketOutputIterator}, putMany s es = .ok s' →
      OutIterSorted s → OutIterSorted s' := by
  induction es with
  | nil =>
    intro s s' h hs
    unfold putMany at h
    simp only [Except.ok.injEq] at h
    exact h ▸ hs
  | cons e rest ih =>
    intro s s' h hs
    unfold putMany at h
    cases hput : s.put e with
    | error msg => rw [hput] at h; simp at h
    | ok s2 =>
      rw [hput] at h
      exact ih h (put_preserves_sorted hput hs)

theorem entryLtB_key_ne {a b : BucketEntry} (h : entryLtB a b = true) :
    a.entryKey ≠ b.entryKey := by
  unfold entryLtB at h
  cases ha : a.entryKey <;> cases hb : b.entryKey <;> simp_all
  intro hk
  subst hk
  simp [keyLt_irrefl] at h

theorem put_replace_same_identity {s s' : BucketOutputIterator}
    {b e : BucketEntry} (hbuf : s.mBuf = some b)
    (h1 : entryLtB b e = false) (h2 : entryLtB e b = false)
    (hnd : s.mKeepTombstoneEntries = false → e.isDead = false)
    (hput : s.put e = .ok s') :
    s'.file = s.file ∧ s'.mObjectsPut = s.mObjectsPut ∧
      s'.mBuf = some (s.installedEntry e) := by
  unfold BucketOutputIterator.put at hput
  split at hput
  · simp at hput
  · split at hput
    · simp at hput
    · split at hput
      case isTrue hcond =>
        exfalso
        cases hk : s.mKeepTombstoneEntries with
        | false => simp [hk, isTombstoneEntry, hnd hk] at hcond
        | true => simp [hk] at hcond
      case isFalse hcond =>
        split at hput
        next b2 heq =>
          rw [hbuf] at heq
          injection heq with heq
          subst heq
          split at hput
          case isTrue hc => rw [h2] at hc; cases hc
          case isFalse hc =>
            split at hput
            case isTrue hc2 => rw [h1] at hc2; cases hc2
            case isFalse hc2 =>
              simp only [Except.ok.injEq] at hput
              subst hput
              exact ⟨rfl, rfl, rfl⟩
        next heq => rw [hbuf] at heq; cases heq
  
theorem put_flush_greater {s s' : BucketOutputIterator}
    {b e : BucketEntry} (hbuf : s.mBuf = some b)
    (h1 : entryLtB b e = true)
    (hnd : s.mKeepTombstoneEntries = false → e.isDead = false)
    (hput : s.put e = .ok s') :
    s'.file = s.file ++ [b] ∧ s'.mObjectsPut = s.mObjectsPut + 1 ∧
      s'.mc.mOutputIteratorActualWrites =
        s.mc.mOutputIteratorActualWrites + 1 ∧
      s'.mBuf = some (s.installedEntry e) := by
  have h2 : entryLtB e b = false := entryLtB_asymm h1
  unfold BucketOutputIterator.put at hput
  split at hput
  · simp at hput
  · split at hput
    · simp at hput
    · split at hput
      case isTrue hcond =>
        exfalso
        cases hk : s.mKeepTombstoneEntries with
        | false => simp [hk, isTombstoneEntry, hnd hk] at hcond
        | true => simp [hk] at hcond
      case isFalse hcond =>
        split at hput
        next b2 heq =>
          rw [hbuf] at heq
          injection heq with heq
          subst heq
          split at hput <;>
            first
              | (simp only [Except.ok.injEq] at hput; subst hput;
                 exact ⟨rfl, rfl, rfl, rfl⟩)
              | simp_all
        next heq => rw [hbuf] at heq; cases heq

/-- C3: For every well-formed (sorted, meta-first) input sequence of put
calls followed by finalize, the records written to the output file
(s.file followed by the final flush of s.mBuf) are strictly ascending by
entry identity and contain no duplicate identities; a non-elided put whose
identity equals the buffered entry's identity replaces the buffer without
writing, and a non-elided put with a strictly greater identity first
flushes the buffered entry to the file. -/
theorem c3_emitted_records_strictly_ascending :
    (∀ (keep : Bool) (meta : BucketMetadata) (es : List BucketEntry)
        (s0 s : BucketOutputIterator),
        mkLiveOutputIterator keep meta = .ok s0 →
        putMany s0 es = .ok s →
        List.Pairwise (fun a b => entryLtB a b = true)
            (s.file ++ s.mBuf.toList) ∧
          ((s.file ++ s.mBuf.toList).map BucketEntry.entryKey).Nodup) ∧
      (∀ (s s' : BucketOutputIterator) (b e : BucketEntry),
          s.mBuf = some b → entryLtB b e = false → entryLtB e b = false →
          (s.mKeepTombstoneEntries = false → e.isDead = false) →
          s.put e = .ok s' →
          s'.file = s.file ∧ s'.mObjectsPut = s.mObjectsPut ∧
            s'.mBuf = some (s.installedEntry e)) ∧
      (∀ (s s' : BucketOutputIterator) (b e : BucketEntry),
          s.mBuf = some b → entryLtB b e = true →
          (s.mKeepTombstoneEntries = false → e.isDead = false) →
          s.put e = .ok s' →
          s'.file = s.file ++ [b] ∧ s'.mObjectsPut = s.mObjectsPut + 1 ∧
            s'.mc.mOutputIteratorActualWrites =
              s.mc.mOutputIteratorActualWrites + 1 ∧
            s'.mBuf = some (s.installedEntry e)) := by
  refine ⟨?_, ?_, ?_⟩
  · intro keep meta es s0 s hmk hpm
    have hs : OutIterSorted s :=
      putMany_preserves_sorted hpm (mk_sorted hmk)
    refine ⟨hs.1, ?_⟩
    rw [List.Nodup, List.pairwise_map]
    exact hs.1.imp (fun h => entryLtB_key_ne h)
  · intro s s' b e hbuf h1 h2 hnd hput
    exact put_replace_same_identity hbuf h1 h2 hnd hput
  · intro s s' b e hbuf h1 hnd hput
    exact put_flush_greater hbuf h1 hnd hput

/-- The S4-style demo input for the output iterator. -/
def demoC3es : List BucketEntry :=
  [.liveEntry (.other 1 1 5), .liveEntry (.other 1 1 6),
   .liveEntry (.other 1 2 7)]

def demoC3s0 : BucketOutputIterator :=
  (mkLiveOutputIterator true ⟨11⟩).toOption.getD
    (freshOutputIterator true ⟨11⟩)

def demoC3s : BucketOutputIterator :=
  (putMany demoC3s0 demoC3es).toOption.getD (freshOutputIterator true ⟨11⟩)

theorem c3_emitted_records_strictly_ascending_witness :
    List.Pairwise (fun a b => entryLtB a b = true)
        (demoC3s.file ++ demoC3s.mBuf.toList) ∧
      ((demoC3s.file ++ demoC3s.mBuf.toList).map
        BucketEntry.entryKey).Nodup :=
  c3_emitted_records_strictly_ascending.1 true ⟨11⟩ demoC3es demoC3s0
    demoC3s rfl rfl

theorem installedEntry_not_live_dead {s : BucketOutputIterator}
    {e : BucketEntry} (hkeep : s.mKeepTombstoneEntries = false)
    (hv : FIRST_PROTOCOL_CONVERTING_BOTTOM_LEVEL_LIVE_TO_INIT ≤
      s.mMeta.ledgerVersion) (hd : e.isDead = false) :
    (s.installedEntry e).isLive = false ∧
      (s.installedEntry e).isDead = false := by
  unfold BucketOutputIterator.installedEntry BucketOutputIterator.rewriteCond
  cases e with
  | liveEntry le =>
    rw [hkeep]
    simp [BucketEntry.isLive, BucketEntry.isDead, BucketEntry.liveData,
      decide_eq_true hv]
  | initEntry le => simp [BucketEntry.isLive, BucketEntry.isDead]
  | deadEntry k => simp [BucketEntry.isDead] at hd
  | metaEntry m => simp [BucketEntry.isLive, BucketEntry.isDead]

/-- The bottom-level output invariant: nothing on file or buffered is a
LIVEENTRY or a DEADENTRY. -/
def NoLiveDead (s : BucketOutputIterator) : Prop :=
  ∀ r ∈ s.file ++ s.mBuf.toList, r.isLive = false ∧ r.isDead = false

theorem put_preserves_no_live_dead {s s' : BucketOutputIterator}
    {e : BucketEntry} (hput : s.put e = .ok s')
    (hkeep : s.mKeepTombstoneEntries = false)
    (hv : FIRST_PROTOCOL_CONVERTING_BOTTOM_LEVEL_LIVE_TO_INIT ≤
      s.mMeta.ledgerVersion)
    (hs : NoLiveDead s) : NoLiveDead s' := by
  rcases put_ok_shape hput with ⟨hf, hb⟩ | ⟨hdead, hbuf', hcase⟩
  · intro r hr
    rw [hf, hb] at hr
    exact hs r hr
  · have hinst := installedEntry_not_live_dead hkeep hv (hdead hkeep)
    intro r hr
    rcases hcase with ⟨hn, hfile⟩ | ⟨w, hsome, _, hsub⟩
    · rw [hfile, hbuf'] at hr
      simp only [Option.toList_some, List.mem_append, List.mem_cons,
        List.not_mem_nil, or_false] at hr
      rcases hr with hr | hr
      · exact hs r (List.mem_append_left _ hr)
      · exact hr ▸ hinst
    · have hw : w ∈ s.file ++ s.mBuf.toList := by
        rw [hsome]; simp
      rcases hsub with ⟨_, hfile⟩ | ⟨_, hfile⟩ <;>
        rw [hfile, hbuf'] at hr <;>
        simp only [Option.toList_some, List.mem_append, List.mem_cons,
          List.not_mem_nil, or_false] at hr
      · rcases hr with (hr | hr) | hr
        · exact hs r (List.mem_append_left _ hr)
        · exact hr ▸ hs w hw
        · exact hr ▸ hinst
      · rcases hr with hr | hr
        · exact hs r (List.mem_append_left _ hr)
        · exact hr ▸ hinst

theorem mk_no_live_dead {keep : Bool} {meta : BucketMetadata}
    {s0 : BucketOutputIterator}
    (h : mkLiveOutputIterator keep meta = .ok s0) : NoLiveDead s0 := by
  unfold mkLiveOutputIterator at h
  split at h
  · cases hput : (freshOutputIterator keep meta).put (.metaEntry meta) with
    | error msg => rw [hput] at h; simp at h
    | ok s1 =>
      rw [hput] at h
      simp only [Except.ok.injEq] at h
      subst h
      rcases put_ok_shape hput with ⟨hf, hb⟩ | ⟨hdead, hbuf', hcase⟩
      · intro r hr
        show r.isLive = false ∧ r.isDead = false
        have : r ∈ s1.file ++ s1.mBuf.toList := hr
        rw [hf, hb] at this
        simp [freshOutputIterator] at this
      · have hinstmeta : (freshOutputIterator keep meta).installedEntry
            (.metaEntry meta) = .metaEntry meta := by
          unfold BucketOutputIterator.installedEntry
            BucketOutputIterator.rewriteCond
          simp [BucketEntry.isLive]
        rcases hcase with ⟨hn, hfile⟩ | ⟨w, hsome, _, _⟩
        · intro r hr
          have : r ∈ s1.file ++ s1.mBuf.toList := hr
          rw [hfile, hbuf', hinstmeta] at this
          simp only [freshOutputIterator, List.nil_append,
            Option.toList_some, List.mem_cons, List.not_mem_nil,
            or_false] at this
          rw [this]
          exact ⟨rfl, rfl⟩
        · exact absurd hsome (by simp [freshOutputIterator])
  · simp only [Except.ok.injEq] at h
    subst h
    intro r hr
    simp [freshOutputIterator] at hr

theorem mk_config {keep : Bool} {meta : BucketMetadata}
    {s0 : BucketOutputIterator}
    (h : mkLiveOutputIterator keep meta = .ok s0) :
    s0.mKeepTombstoneEntries = keep ∧ s0.mMeta = meta := by
  unfold mkLiveOutputIterator at h
  split at h
  · cases hput : (freshOutputIterator keep meta).put (.metaEntry meta) with
    | error msg => rw [hput] at h; simp at h
    | ok s1 =>
      rw [hput] at h
      simp only [Except.ok.injEq] at h
      subst h
      obtain ⟨h1, h2, _⟩ := put_config hput
      exact ⟨h1, h2⟩
  · simp only [Except.ok.injEq] at h
    subst h
    exact ⟨rfl, rfl⟩

theorem putMany_preserves_no_live_dead {es : List BucketEntry} :
    ∀ {s s' : BucketOutputIterator}, putMany s es = .ok s' →
      s.mKeepTombstoneEntries = false →
      FIRST_PROTOCOL_CONVERTING_BOTTOM_LEVEL_LIVE_TO_INIT ≤
        s.mMeta.ledgerVersion →
      NoLiveDead s → NoLiveDead s' := by
  induction es with
  | nil =>
    intro s s' h hk hv hs
    unfold putMany at h
    simp only [Except.ok.injEq] at h
    exact h ▸ hs
  | cons e rest ih =>
    intro s s' h hk hv hs
    unfold putMany at h
    cases hput : s.put e with
    | error msg => rw [hput] at h; simp at h
    | ok s2 =>
      rw [hput] at h
      obtain ⟨hck, hcm, _⟩ := put_config hput
      exact ih h (hck.trans hk) (by rw [hcm]; exact hv)
        (put_preserves_no_live_dead hput hk hv hs)

/-- C4: For every input sequence to a live-cascade output iterator
constructed with keep_tombstones = false and meta.ledger_version at or
above the live-to-init rewrite protocol, the emitted file contains no
LiveEntry record and no DeadEntry record: every DeadEntry put is dropped
(counted as a tombstone elision) and every LiveEntry put is installed and
emitted as an InitEntry carrying the same LedgerEntry payload. -/
theorem c4_bottom_level_no_live_no_dead :
    (∀ (s : BucketOutputIterator) (k : LedgerKey),
        s.mKeepTombstoneEntries = false →
        s.put (.deadEntry k) =
          .ok { s with
                mc := { s.mc with
                        mOutputIteratorTombstoneElisions :=
                          s.mc.mOutputIteratorTombstoneElisions + 1 } }) ∧
      (∀ (s s' : BucketOutputIterator) (le : LedgerEntry),
          s.mKeepTombstoneEntries = false →
          FIRST_PROTOCOL_CONVERTING_BOTTOM_LEVEL_LIVE_TO_INIT ≤
            s.mMeta.ledgerVersion →
          s.put (.liveEntry le) = .ok s' →
          s'.mBuf = some (.initEntry le)) ∧
      (∀ (meta : BucketMetadata) (es : List BucketEntry)
          (s0 s : BucketOutputIterator),
          FIRST_PROTOCOL_CONVERTING_BOTTOM_LEVEL_LIVE_TO_INIT ≤
            meta.ledgerVersion →
          mkLiveOutputIterator false meta = .ok s0 →
          putMany s0 es = .ok s →
          ∀ r ∈ s.file ++ s.mBuf.toList,
            r.isLive = false ∧ r.isDead = false) := by
  refine ⟨?_, ?_, ?_⟩
  · intro s k hk
    unfold BucketOutputIterator.put
    simp [checkProtocolLegality, BucketEntry.isInit, BucketEntry.isMeta,
      hk, isTombstoneEntry, BucketEntry.isDead]
  · intro s s' le hk hv hput
    have hinst : s.installedEntry (.liveEntry le) = .initEntry le := by
      unfold BucketOutputIterator.installedEntry
        BucketOutputIterator.rewriteCond
      rw [hk]
      simp [BucketEntry.isLive, BucketEntry.liveData, decide_eq_true hv]
    unfold BucketOutputIterator.put at hput
    split at hput
    · simp at hput
    · split at hput
      case isTrue hmeta => simp [BucketEntry.isMeta] at hmeta
      case isFalse hmeta =>
        split at hput
        case isTrue helide =>
          simp [isTombstoneEntry, BucketEntry.isDead] at helide
        case isFalse helide =>
          split at hput
          next b2 heq =>
            split at hput
            case isTrue horder => simp at hput
            case isFalse horder =>
              split at hput <;>
                (simp only [Except.ok.injEq] at hput; subst hput;
                 simp [BucketOutputIterator.installBuf, hinst])
          next heq =>
            simp only [Except.ok.injEq] at hput
            subst hput
            simp [BucketOutputIterator.installBuf, hinst]
  · intro meta es s0 s hv hmk hpm
    obtain ⟨hck, hcm⟩ := mk_config hmk
    exact putMany_preserves_no_live_dead hpm hck
      (by rw [hcm]; exact hv) (mk_no_live_dead hmk)

/-- The S5-style demo input: a tombstone then a live entry, fed to a
bottom-level iterator at the rewrite protocol. -/
def demoC4es : List BucketEntry :=
  [.deadEntry (.account 1), .liveEntry (.other 1 2 9)]

def demoC4s0 : BucketOutputIterator :=
  (mkLiveOutputIterator false ⟨23⟩).toOption.getD
    (freshOutputIterator false ⟨23⟩)

def demoC4s : BucketOutputIterator :=
  (putMany demoC4s0 demoC4es).toOption.getD (freshOutputIterator false ⟨23⟩)

theorem c4_bottom_level_no_live_no_dead_witness :
    FIRST_PROTOCOL_CONVERTING_BOTTOM_LEVEL_LIVE_TO_INIT ≤ (23 : Nat) ∧
      (BucketEntry.initEntry (.other 1 2 9)).isLive = false ∧
        (BucketEntry.initEntry (.other 1 2 9)).isDead = false :=
  ⟨by decide,
    c4_bottom_level_no_live_no_dead.2.2 ⟨23⟩ demoC4es demoC4s0 demoC4s
      (by decide) rfl rfl (.initEntry (.other 1 2 9)) (by decide)⟩

/-! ### loadInflationWinners (src/bucket/BucketListSnapshot.cpp)

The vote-count map and the seen set are UnorderedMap/UnorderedSet in C++;
they are modelled as an insertion-ordered association list and a membership
list (iteration order of the C++ containers is unspecified; the claims
below either quantify over it or are insensitive to it). -/

/-- voteCount[d] += amt (a fresh destination is appended, as with
UnorderedMap operator[] value-initialization). -/
def bumpVote : List (Nat × Int) → Nat → Int → List (Nat × Int)
  | [], d, amt => [(d, amt)]
  | (d', c) :: t, d, amt =>
    if d' = d then (d', c + amt) :: t else (d', c) :: bumpVote t d amt

/-- UnorderedSet insert (membership model). -/
def insertSeen (id : Nat) (seen : List Nat) : List Nat :=
  if id ∈ seen then seen else id :: seen

/-- Modelled from the spec: BucketInputIterator consumes the META header at
the start of the file before yielding data entries. -/
def dropLeadingMeta : List BucketEntry → List BucketEntry
  | .metaEntry _ :: rest => rest
  | es => es

/-- The body of countVotesInBucket: stream the bucket's entries in file
order, record dead account ids in `seen`, break at the first entry whose
liveEntry payload is not an account, count at most one live occurrence per
account id, and tally balances ≥ 1'000'000'000 into the inflation
destination's vote count. -/
def countVotesLoop : List BucketEntry →
    List (Nat × Int) × List Nat → List (Nat × Int) × List Nat
  | [], st => st
  | .deadEntry (.account id) :: rest, (votes, seen) =>
    countVotesLoop rest (votes, insertSeen id seen)
  | .deadEntry (.other _ _) :: rest, (votes, seen) =>
    countVotesLoop rest (votes, seen)
  | be :: rest, (votes, seen) =>
    match be.liveData with
    | .other _ _ _ => (votes, seen)
    | .account ae =>
      if ae.accountID ∈ seen then countVotesLoop rest (votes, seen)
      else
        let seen2 := insertSeen ae.accountID seen
        match ae.inflationDest with
        | some d =>
          if 1000000000 ≤ ae.balance then
            countVotesLoop rest (bumpVote votes d ae.balance, seen2)
          else countVotesLoop rest (votes, seen2)
        | none => countVotesLoop rest (votes, seen2)

/-- The vote-count phase of loadInflationWinners: countVotesInBucket over
every non-empty bucket in traversal order (the visitor never stops). -/
def inflationVoteState (bl : BucketListSnapshot) :
    List (Nat × Int) × List Nat :=
  SearchableBucketListSnapshot.loopAllBuckets bl
    (fun st b => (countVotesLoop (dropLeadingMeta b.entries) st, false))
    ([], [])

def inflationVotes (bl : BucketListSnapshot) : List (Nat × Int) :=
  (inflationVoteState bl).1

/-- std::map<int64_t, ..., std::greater> insertion keyed by vote count:
the list is kept sorted by strictly descending count; inserting an existing
count overwrites the mapped value (the last-inserted destination wins). -/
def insertByCountDesc : Int × Nat → List (Int × Nat) → List (Int × Nat)
  | (c, id), [] => [(c, id)]
  | (c, id), (c', id') :: t =>
    if c < c' then (c', id') :: insertByCountDesc (c, id) t
    else if c = c' then (c, id) :: t
    else (c, id) :: (c', id') :: t

/-- The winner-selection loop of the over-max_winners branch: its condition
tests winners.size() < maxWinners and then dereferences the iterator
without checking it against the map's end; running off the end is C++
undefined behaviour, modelled as Except.error. -/
def selectWinnersLoop (maxWinners : Nat) (minBalance : Int) :
    List (Int × Nat) → List (Nat × Int) →
    Except String (List (Nat × Int))
  | [], winners =>
    if winners.length < maxWinners then
      .error "dereferenced past-the-end iterator"
    else .ok winners
  | (c, id) :: t, winners =>
    if winners.length < maxWinners then
      if minBalance ≤ c then
        selectWinnersLoop maxWinners minBalance t (winners ++ [(id, c)])
      else .ok winners
    else .ok winners

/-- SearchableBucketListSnapshot::loadInflationWinners. Winners are
(accountID, votes) pairs. -/
def SearchableBucketListSnapshot.loadInflationWinners
    (bl : BucketListSnapshot) (maxWinners : Nat) (minBalance : Int) :
    Except String (List (Nat × Int)) :=
  if maxWinners < (inflationVotes bl).length then
    selectWinnersLoop maxWinners minBalance
      ((inflationVotes bl).foldl
        (fun m p => insertByCountDesc (p.2, p.1) m) []) []
  else
    .ok ((inflationVotes bl).foldl
      (fun ws p => if minBalance ≤ p.2 then ws ++ [p] else ws) [])

-- Spec-side definitions for C7: the scanned stream and its first-occurrence
-- contributions.

/-- The account id an entry makes visible to the shadowing set:
dead account entries and live/init account entries carry their id. -/
def idOfEntry : BucketEntry → Option Nat
  | .deadEntry (.account id) => some id
  | .liveEntry (.account ae) => some ae.accountID
  | .initEntry (.account ae) => some ae.accountID
  | _ => none

/-- The account entry of a live/init account record. -/
def accountOf : BucketEntry → Option AccountEntry
  | .liveEntry (.account ae) => some ae
  | .initEntry (.account ae) => some ae
  | _ => none

/-- Whether the vote-count loop continues past this entry (it breaks at the
first entry whose liveEntry payload is not an account). -/
def scanCont (be : BucketEntry) : Bool :=
  be.isDead ||
    (match be.liveData with
     | .account _ => true
     | .other _ _ _ => false)

/-- The top-down stream of entries the inflation query actually scans:
every non-empty bucket in traversal order, its meta header dropped,
truncated at the first non-account live entry. -/
def scannedStream (bl : BucketListSnapshot) : List BucketEntry :=
  (bl.allBuckets.filter (fun b => !b.isEmpty)).flatMap
    (fun b => (dropLeadingMeta b.entries).takeWhile scanCont)

/-- The contribution of the stream entry at position `i`, given that the
ids in `s` were already seen before the stream: some (accountID,
destination, balance) iff the entry is a live/init account entry, its id
occurs in neither `s` nor an earlier stream position, its inflation
destination is set, and its balance is at least 1'000'000'000. -/
def contributesAtFrom (s : List Nat) (stream : List BucketEntry)
    (i : Nat) : Option (Nat × Nat × Int) :=
  match stream[i]? with
  | some be =>
    match accountOf be with
    | some ae =>
      if ae.accountID ∈ s ++ (stream.take i).filterMap idOfEntry then none
      else
        match ae.inflationDest with
        | some d =>
          if 1000000000 ≤ ae.balance then
            some (ae.accountID, d, ae.balance)
          else none
        | none => none
    | none => none
  | none => none

/-- All contributions of a stream, in stream order. -/
def specContribsFrom (s : List Nat) (stream : List BucketEntry) :
    List (Nat × Nat × Int) :=
  (List.range stream.length).filterMap (contributesAtFrom s stream)

/-- The tally the claim predicts for destination `d`. -/
def sumVotesFor (d : Nat) (l : List (Nat × Nat × Int)) : Int :=
  ((l.filter (fun t => t.2.1 == d)).map (fun t => t.2.2)).sum

/-- Association-list lookup of a destination's tallied votes (0 when the
destination was never tallied). -/
def lookupVote (d : Nat) (votes : List (Nat × Int)) : Int :=
  ((votes.find? (fun p => p.1 == d)).map (fun p => p.2)).getD 0

-- Bridge lemmas: the bucket fold equals one pass over the scanned stream.

theorem countVotesLoop_takeWhile (es : List BucketEntry) :
    ∀ st, countVotesLoop es st = countVotesLoop (es.takeWhile scanCont) st := by
  induction es with
  | nil => intro st; rfl
  | cons be rest ih =>
    intro st
    obtain ⟨votes, seen⟩ := st
    cases be with
    | deadEntry k =>
      cases k with
      | account id =>
        simp only [countVotesLoop, List.takeWhile_cons, scanCont,
          BucketEntry.isDead, Bool.true_or, if_pos rfl]
        exact ih _
      | other t k2 =>
        simp only [countVotesLoop, List.takeWhile_cons, scanCont,
          BucketEntry.isDead, Bool.true_or, if_pos rfl]
        exact ih _
    | liveEntry le =>
      cases le with
      | account ae =>
        simp only [countVotesLoop, List.takeWhile_cons, scanCont,
          BucketEntry.isDead, BucketEntry.liveData, Bool.false_or,
          if_pos rfl]
        by_cases hmem : ae.accountID ∈ seen
        · simp only [if_pos hmem]; exact ih _
        · simp only [if_neg hmem]
          cases ae.inflationDest with
          | some d =>
            by_cases hbal : (1000000000 : Int) ≤ ae.balance
            · simp only [if_pos hbal]; exact ih _
            · simp only [if_neg hbal]; exact ih _
          | none => exact ih _
      | other t k2 v =>
        simp [countVotesLoop, List.takeWhile_cons, scanCont,
          BucketEntry.isDead, BucketEntry.liveData]
    | initEntry le =>
      cases le with
      | account ae =>
        simp only [countVotesLoop, List.takeWhile_cons, scanCont,
          BucketEntry.isDead, BucketEntry.liveData, Bool.false_or,
          if_pos rfl]
        by_cases hmem : ae.accountID ∈ seen
        · simp only [if_pos hmem]; exact ih _
        · simp only [if_neg hmem]
          cases ae.inflationDest with
          | some d =>
            by_cases hbal : (1000000000 : Int) ≤ ae.balance
            · simp only [if_pos hbal]; exact ih _
            · simp only [if_neg hbal]; exact ih _
          | none => exact ih _
      | other t k2 v =>
        simp [countVotesLoop, List.takeWhile_cons, scanCont,
          BucketEntry.isDead, BucketEntry.liveData]
    | metaEntry m =>
      simp [countVotesLoop, List.takeWhile_cons, scanCont,
        BucketEntry.isDead, BucketEntry.liveData]

theorem countVotesLoop_append (xs ys : List BucketEntry)
    (hall : ∀ be ∈ xs, scanCont be = true) :
    ∀ st, countVotesLoop (xs ++ ys) st =
      countVotesLoop ys (countVotesLoop xs st) := by
  induction xs with
  | nil => intro st; rfl
  | cons be rest ih =>
    intro st
    obtain ⟨votes, seen⟩ := st
    have hrest : ∀ b ∈ rest, scanCont b = true :=
      fun b hb => hall b (by simp [hb])
    have hbe : scanCont be = true := hall be (by simp)
    cases be with
    | deadEntry k =>
      cases k with
      | account id => simp only [List.cons_append, countVotesLoop]; exact ih hrest _
      | other t k2 => simp only [List.cons_append, countVotesLoop]; exact ih hrest _
    | liveEntry le =>
      cases le with
      | account ae =>
        simp only [List.cons_append, countVotesLoop, BucketEntry.liveData]
        by_cases hmem : ae.accountID ∈ seen
        · simp only [if_pos hmem]; exact ih hrest _
        · simp only [if_neg hmem]
          cases ae.inflationDest with
          | some d =>
            by_cases hbal : (1000000000 : Int) ≤ ae.balance
            · simp only [if_pos hbal]; exact ih hrest _
            · simp only [if_neg hbal]; exact ih hrest _
          | none => exact ih hrest _
      | other t k2 v =>
        simp [scanCont, BucketEntry.isDead, BucketEntry.liveData] at hbe
    | initEntry le =>
      cases le with
      | account ae =>
        simp only [List.cons_append, countVotesLoop, BucketEntry.liveData]
        by_cases hmem : ae.accountID ∈ seen
        · simp only [if_pos hmem]; exact ih hrest _
        · simp only [if_neg hmem]
          cases ae.inflationDest with
          | some d =>
            by_cases hbal : (1000000000 : Int) ≤ ae.balance
            · simp only [if_pos hbal]; exact ih hrest _
            · simp only [if_neg hbal]; exact ih hrest _
          | none => exact ih hrest _
      | other t k2 v =>
        simp [scanCont, BucketEntry.isDead, BucketEntry.liveData] at hbe
    | metaEntry m =>
      simp [scanCont, BucketEntry.isDead, BucketEntry.liveData] at hbe

theorem loopBuckets_no_stop {σ : Type} (g : σ → BucketSnapshot → σ) :
    ∀ (bs : List BucketSnapshot) (st : σ),
      loopBuckets (fun st b => (g st b, false)) bs st =
        (bs.filter (fun b => !b.isEmpty)).foldl g st := by
  intro bs
  induction bs with
  | nil => intro st; rfl
  | cons b rest ih =>
    intro st
    by_cases he : b.isEmpty
    · simp [loopBuckets, he, List.filter_cons, ih]
    · simp [loopBuckets, he, List.filter_cons, ih]

theorem inflationVotes_eq_stream (bl : BucketListSnapshot) :
    inflationVotes bl = (countVotesLoop (scannedStream bl) ([], [])).1 := by
  unfold inflationVotes inflationVoteState
    SearchableBucketListSnapshot.loopAllBuckets scannedStream
  rw [loopBuckets_no_stop]
  generalize bl.allBuckets.filter (fun b => !b.isEmpty) = bs
  suffices h : ∀ (st : List (Nat × Int) × List Nat),
      bs.foldl (fun st b => countVotesLoop (dropLeadingMeta b.entries) st)
          st =
        countVotesLoop
          (bs.flatMap (fun b => (dropLeadingMeta b.entries).takeWhile
            scanCont)) st by
    rw [h]
  induction bs with
  | nil => intro st; rfl
  | cons b rest ih =>
    intro st
    rw [List.foldl_cons, ih,
      countVotesLoop_takeWhile (dropLeadingMeta b.entries) st,
      List.flatMap_cons,
      countVotesLoop_append _ _
        (fun be hbe => List.mem_takeWhile_imp hbe)]

-- Positional-spec lemmas.

theorem contributesAtFrom_succ (s : List Nat) (be : BucketEntry)
    (rest : List BucketEntry) (i : Nat) :
    contributesAtFrom s (be :: rest) (i + 1) =
      contributesAtFrom (s ++ (idOfEntry be).toList) rest i := by
  cases h : idOfEntry be with
  | none =>
    unfold contributesAtFrom
    rw [List.getElem?_cons_succ]
    simp only [List.take_succ_cons, List.filterMap_cons, h,
      Option.toList_none, List.append_nil]
  | some a =>
    unfold contributesAtFrom
    rw [List.getElem?_cons_succ]
    simp only [List.take_succ_cons, List.filterMap_cons, h,
      Option.toList_some, List.append_assoc, List.singleton_append]

theorem specContribsFrom_nil (s : List Nat) :
    specContribsFrom s [] = [] := rfl

theorem specContribsFrom_cons (s : List Nat) (be : BucketEntry)
    (rest : List BucketEntry) :
    specContribsFrom s (be :: rest) =
      (contributesAtFrom s (be :: rest) 0).toList ++
        specContribsFrom (s ++ (idOfEntry be).toList) rest := by
  unfold specContribsFrom
  have hlen : (be :: rest).length = rest.length + 1 := rfl
  rw [hlen, List.range_succ_eq_map, List.filterMap_cons,
    List.filterMap_map]
  have hcomp : (contributesAtFrom s (be :: rest)) ∘ Nat.succ =
      contributesAtFrom (s ++ (idOfEntry be).toList) rest := by
    funext i
    exact contributesAtFrom_succ s be rest i
  rw [hcomp]
  cases h0 : contributesAtFrom s (be :: rest) 0 <;> simp

theorem sumVotesFor_cons (d : Nat) (t : Nat × Nat × Int)
    (l : List (Nat × Nat × Int)) :
    sumVotesFor d (t :: l) =
      (if t.2.1 = d then t.2.2 else 0) + sumVotesFor d l := by
  unfold sumVotesFor
  rw [List.filter_cons]
  by_cases h : t.2.1 = d
  · simp [h]
  · simp [h]

theorem lookupVote_bumpVote (votes : List (Nat × Int)) (d' : Nat)
    (amt : Int) (d : Nat) :
    lookupVote d (bumpVote votes d' amt) =
      lookupVote d votes + (if d' = d then amt else 0) := by
  induction votes with
  | nil =>
    by_cases h : d' = d
    · simp [bumpVote, lookupVote, h]
    · simp [bumpVote, lookupVote, h, Ne.symm h]
  | cons p t ih =>
    obtain ⟨pd, pc⟩ := p
    by_cases h1 : pd = d'
    · subst h1
      by_cases h2 : pd = d
      · subst h2
        simp [bumpVote, lookupVote]
      · simp [bumpVote, lookupVote, h2, if_neg h2]
    · by_cases h2 : pd = d
      · subst h2
        have hne : ¬(d' = pd) := fun hc => h1 hc.symm
        simp [bumpVote, lookupVote, h1, hne]
      · have hbeq : (pd == d) = false := by simp [h2]
        simp only [bumpVote, if_neg h1, lookupVote, List.find?_cons, hbeq]
        simpa [lookupVote] using ih

theorem mem_insertSeen (id x : Nat) (seen : List Nat) :
    x ∈ insertSeen id seen ↔ x = id ∨ x ∈ seen := by
  unfold insertSeen
  split
  case isTrue h =>
    constructor
    · intro hx; exact .inr hx
    · intro hx
      rcases hx with hx | hx
      · exact hx ▸ h
      · exact hx
  case isFalse h => simp [List.mem_cons]

theorem seen_equiv_step {seenI seenS : List Nat}
    (hsm : ∀ x : Nat, x ∈ seenI ↔ x ∈ seenS) (id : Nat) (x : Nat) :
    x ∈ insertSeen id seenI ↔ x ∈ seenS ++ [id] := by
  rw [mem_insertSeen, List.mem_append, List.mem_singleton, hsm x]
  tauto

theorem seen_equiv_mem {seenI seenS : List Nat}
    (hsm : ∀ x : Nat, x ∈ seenI ↔ x ∈ seenS) (id : Nat)
    (hid : id ∈ seenI) (x : Nat) :
    x ∈ seenI ↔ x ∈ seenS ++ [id] := by
  rw [List.mem_append, List.mem_singleton]
  constructor
  · intro hx; exact .inl ((hsm x).mp hx)
  · intro hx
    rcases hx with hx | hx
    · exact (hsm x).mpr hx
    · exact hx ▸ hid

theorem countVotesLoop_tally :
    ∀ (stream : List BucketEntry),
      (∀ be ∈ stream, scanCont be = true) →
      ∀ (votes : List (Nat × Int)) (seenI seenS : List Nat),
        (∀ id : Nat, id ∈ seenI ↔ id ∈ seenS) →
        ∀ d : Nat,
          lookupVote d (countVotesLoop stream (votes, seenI)).1 =
            lookupVote d votes +
              sumVotesFor d (specContribsFrom seenS stream) := by
  intro stream
  induction stream with
  | nil =>
    intro _ votes seenI seenS _ d
    simp [countVotesLoop, specContribsFrom, sumVotesFor]
  | cons be rest ih =>
    intro hall votes seenI seenS hsm d
    have hrest : ∀ b ∈ rest, scanCont b = true :=
      fun b hb => hall b (by simp [hb])
    have hbe := hall be (by simp)
    rw [specContribsFrom_cons]
    cases be with
    | deadEntry k =>
      cases k with
      | account id =>
        have hc : contributesAtFrom seenS
            (BucketEntry.deadEntry (.account id) :: rest) 0 = none := by
          simp [contributesAtFrom, accountOf]
        rw [hc]
        simp only [Option.toList_none, List.nil_append]
        have hid : idOfEntry (BucketEntry.deadEntry (.account id)) =
            some id := rfl
        rw [hid]
        simp only [countVotesLoop]
        exact ih hrest votes (insertSeen id seenI) (seenS ++ [id])
          (seen_equiv_step hsm id) d
      | other t k2 =>
        have hc : contributesAtFrom seenS
            (BucketEntry.deadEntry (.other t k2) :: rest) 0 = none := by
          simp [contributesAtFrom, accountOf]
        rw [hc]
        simp only [Option.toList_none, List.nil_append]
        have hid : idOfEntry (BucketEntry.deadEntry (.other t k2)) =
            none := rfl
        rw [hid]
        simp only [Option.toList_none, List.append_nil, countVotesLoop]
        exact ih hrest votes seenI seenS hsm d
    | liveEntry le =>
      cases le with
      | account ae =>
        have hid : idOfEntry (BucketEntry.liveEntry (.account ae)) =
            some ae.accountID := rfl
        rw [hid]
        by_cases hmem : ae.accountID ∈ seenI
        · have hmemS : ae.accountID ∈ seenS := (hsm _).mp hmem
          have hc : contributesAtFrom seenS
              (BucketEntry.liveEntry (.account ae) :: rest) 0 = none := by
            simp [contributesAtFrom, accountOf, hmemS]
          rw [hc]
          simp only [Option.toList_none, List.nil_append]
          simp only [countVotesLoop, BucketEntry.liveData, if_pos hmem]
          exact ih hrest votes seenI (seenS ++ [ae.accountID])
            (seen_equiv_mem hsm _ hmem) d
        · have hnmemS : ae.accountID ∉ seenS :=
            fun hx => hmem ((hsm _).mpr hx)
          cases hdest : ae.inflationDest with
          | some dd =>
            by_cases hbal : (1000000000 : Int) ≤ ae.balance
            · have hc : contributesAtFrom seenS
                  (BucketEntry.liveEntry (.account ae) :: rest) 0 =
                  some (ae.accountID, dd, ae.balance) := by
                simp [contributesAtFrom, accountOf, hnmemS, hdest, hbal]
              rw [hc]
              simp only [Option.toList_some, List.singleton_append]
              rw [sumVotesFor_cons]
              simp only [countVotesLoop, BucketEntry.liveData,
                if_neg hmem, hdest, if_pos hbal]
              rw [ih hrest (bumpVote votes dd ae.balance)
                (insertSeen ae.accountID seenI) (seenS ++ [ae.accountID])
                (seen_equiv_step hsm _) d]
              rw [lookupVote_bumpVote]
              simp only [add_assoc]
            · have hc : contributesAtFrom seenS
                  (BucketEntry.liveEntry (.account ae) :: rest) 0 =
                  none := by
                simp [contributesAtFrom, accountOf, hnmemS, hdest, hbal]
              rw [hc]
              simp only [Option.toList_none, List.nil_append]
              simp only [countVotesLoop, BucketEntry.liveData,
                if_neg hmem, hdest, if_neg hbal]
              exact ih hrest votes (insertSeen ae.accountID seenI)
                (seenS ++ [ae.accountID]) (seen_equiv_step hsm _) d
          | none =>
            have hc : contributesAtFrom seenS
                (BucketEntry.liveEntry (.account ae) :: rest) 0 = none := by
              simp [contributesAtFrom, accountOf, hnmemS, hdest]
            rw [hc]
            simp only [Option.toList_none, List.nil_append]
            simp only [countVotesLoop, BucketEntry.liveData,
              if_neg hmem, hdest]
            exact ih hrest votes (insertSeen ae.accountID seenI)
              (seenS ++ [ae.accountID]) (seen_equiv_step hsm _) d
      | other t k2 v =>
        simp [scanCont, BucketEntry.isDead, BucketEntry.liveData] at hbe
    | initEntry le =>
      cases le with
      | account ae =>
        have hid : idOfEntry (BucketEntry.initEntry (.account ae)) =
            some ae.accountID := rfl
        rw [hid]
        by_cases hmem : ae.accountID ∈ seenI
        · have hmemS : ae.accountID ∈ seenS := (hsm _).mp hmem
          have hc : contributesAtFrom seenS
              (BucketEntry.initEntry (.account ae) :: rest) 0 = none := by
            simp [contributesAtFrom, accountOf, hmemS]
          rw [hc]
          simp only [Option.toList_none, List.nil_append]
          simp only [countVotesLoop, BucketEntry.liveData, if_pos hmem]
          exact ih hrest votes seenI (seenS ++ [ae.accountID])
            (seen_equiv_mem hsm _ hmem) d
        · have hnmemS : ae.accountID ∉ seenS :=
            fun hx => hmem ((hsm _).mpr hx)
          cases hdest : ae.inflationDest with
          | some dd =>
            by_cases hbal : (1000000000 : Int) ≤ ae.balance
            · have hc : contributesAtFrom seenS
                  (BucketEntry.initEntry (.account ae) :: rest) 0 =
                  some (ae.accountID, dd, ae.balance) := by
                simp [contributesAtFrom, accountOf, hnmemS, hdest, hbal]
              rw [hc]
              simp only [Option.toList_some, List.singleton_append]
              rw [sumVotesFor_cons]
              simp only [countVotesLoop, BucketEntry.liveData,
                if_neg hmem, hdest, if_pos hbal]
              rw [ih hrest (bumpVote votes dd ae.balance)
                (insertSeen ae.accountID seenI) (seenS ++ [ae.accountID])
                (seen_equiv_step hsm _) d]
              rw [lookupVote_bumpVote]
              simp only [add_assoc]
            · have hc : contributesAtFrom seenS
                  (BucketEntry.initEntry (.account ae) :: rest) 0 =
                  none := by
                simp [contributesAtFrom, accountOf, hnmemS, hdest, hbal]
              rw [hc]
              simp only [Option.toList_none, List.nil_append]
              simp only [countVotesLoop, BucketEntry.liveData,
                if_neg hmem, hdest, if_neg hbal]
              exact ih hrest votes (insertSeen ae.accountID seenI)
                (seenS ++ [ae.accountID]) (seen_equiv_step hsm _) d
          | none =>
            have hc : contributesAtFrom seenS
                (BucketEntry.initEntry (.account ae) :: rest) 0 = none := by
              simp [contributesAtFrom, accountOf, hnmemS, hdest]
            rw [hc]
            simp only [Option.toList_none, List.nil_append]
            simp only [countVotesLoop, BucketEntry.liveData,
              if_neg hmem, hdest]
            exact ih hrest votes (insertSeen ae.accountID seenI)
              (seenS ++ [ae.accountID]) (seen_equiv_step hsm _) d
      | other t k2 v =>
        simp [scanCont, BucketEntry.isDead, BucketEntry.liveData] at hbe
    | metaEntry m =>
      simp [scanCont, BucketEntry.isDead, BucketEntry.liveData] at hbe

theorem accountOf_idOf {be : BucketEntry} {ae : AccountEntry}
    (h : accountOf be = some ae) :
    idOfEntry be = some ae.accountID := by
  cases be with
  | liveEntry le => cases le <;> simp_all [accountOf, idOfEntry]
  | initEntry le => cases le <;> simp_all [accountOf, idOfEntry]
  | deadEntry k => simp [accountOf] at h
  | metaEntry m => simp [accountOf] at h

theorem contributesAt_zero_some {s : List Nat} {be : BucketEntry}
    {rest : List BucketEntry} {q : Nat × Nat × Int}
    (h : contributesAtFrom s (be :: rest) 0 = some q) :
    q.1 ∉ s ∧ idOfEntry be = some q.1 := by
  unfold contributesAtFrom at h
  rw [List.getElem?_cons_zero] at h
  simp only [List.take_zero, List.filterMap_nil, List.append_nil] at h
  cases hao : accountOf be with
  | none => simp [hao] at h
  | some ae =>
    simp only [hao] at h
    by_cases hm : ae.accountID ∈ s
    · simp [hm] at h
    · simp only [if_neg hm] at h
      cases hd : ae.inflationDest with
      | none => simp [hd] at h
      | some dd =>
        simp only [hd] at h
        by_cases hb : (1000000000 : Int) ≤ ae.balance
        · simp only [if_pos hb, Option.some.injEq] at h
          subst h
          exact ⟨hm, accountOf_idOf hao⟩
        · simp [hb] at h

theorem specContribsFrom_fst_not_mem :
    ∀ (stream : List BucketEntry) (s : List Nat),
      ∀ p ∈ specContribsFrom s stream, p.1 ∉ s := by
  intro stream
  induction stream with
  | nil => intro s p hp; simp [specContribsFrom] at hp
  | cons be rest ih =>
    intro s p hp
    rw [specContribsFrom_cons] at hp
    rcases List.mem_append.mp hp with hp | hp
    · cases hc : contributesAtFrom s (be :: rest) 0 with
      | none => rw [hc] at hp; simp at hp
      | some q =>
        rw [hc] at hp
        simp only [Option.toList_some, List.mem_singleton] at hp
        subst hp
        exact (contributesAt_zero_some hc).1
    · have hnot := ih (s ++ (idOfEntry be).toList) p hp
      intro hx
      exact hnot (List.mem_append_left _ hx)

theorem specContribsFrom_ids_nodup :
    ∀ (stream : List BucketEntry) (s : List Nat),
      ((specContribsFrom s stream).map (fun p => p.1)).Nodup := by
  intro stream
  induction stream with
  | nil => intro s; simp [specContribsFrom]
  | cons be rest ih =>
    intro s
    rw [specContribsFrom_cons]
    cases hc : contributesAtFrom s (be :: rest) 0 with
    | none =>
      simpa using ih (s ++ (idOfEntry be).toList)
    | some q =>
      obtain ⟨hns, hid⟩ := contributesAt_zero_some hc
      simp only [Option.toList_some, List.singleton_append, List.map_cons,
        List.nodup_cons]
      refine ⟨?_, ih _⟩
      intro hmem
      rcases List.mem_map.mp hmem with ⟨p, hp, hpq⟩
      have hnot := specContribsFrom_fst_not_mem rest
        (s ++ (idOfEntry be).toList) p hp
      apply hnot
      rw [hid]
      simp [hpq]

/-- C7: In load_inflation_winners, an account's balance is added to its
inflation destination's vote tally exactly when the account entry is the
first occurrence of that account id in the top-down bucket stream (a
DeadEntry for the account at a higher level, or a prior live occurrence,
shadows it), the account has an inflation destination set, and its balance
is at least 1'000'000'000: for every destination d the tallied count is the
sum of the balances of exactly those first-occurrence qualifying entries
whose destination is d, and each account contributes at most once across
all buckets (the contributing account ids are pairwise distinct). -/
theorem c7_inflation_vote_tally (bl : BucketListSnapshot) :
    (∀ d : Nat,
        lookupVote d (inflationVotes bl) =
          sumVotesFor d (specContribsFrom [] (scannedStream bl))) ∧
      ((specContribsFrom [] (scannedStream bl)).map
        (fun p => p.1)).Nodup := by
  constructor
  · intro d
    rw [inflationVotes_eq_stream]
    have hall : ∀ be ∈ scannedStream bl, scanCont be = true := by
      intro be hbe
      unfold scannedStream at hbe
      rcases List.mem_flatMap.mp hbe with ⟨b, _, hmem⟩
      exact List.mem_takeWhile_imp hmem
    have htally := countVotesLoop_tally (scannedStream bl) hall [] [] []
      (fun x => Iff.rfl) d
    simpa [lookupVote] using htally
  · exact specContribsFrom_ids_nodup _ _


-- Winner-selection lemmas.

theorem foldl_filter_append (minB : Int) :
    ∀ (l : List (Nat × Int)) (acc : List (Nat × Int)),
      l.foldl (fun ws p => if minB ≤ p.2 then ws ++ [p] else ws) acc =
        acc ++ l.filter (fun p => decide (minB ≤ p.2)) := by
  intro l
  induction l with
  | nil => intro acc; simp
  | cons p t ih =>
    intro acc
    by_cases h : minB ≤ p.2
    · simp [List.foldl_cons, h, List.filter_cons, ih, List.append_assoc]
    · simp [List.foldl_cons, h, List.filter_cons, ih]

theorem selectWinnersLoop_ok (maxW : Nat) (minB : Int) :
    ∀ (l : List (Int × Nat)) (acc : List (Nat × Int)),
      maxW ≤ l.length + acc.length →
      selectWinnersLoop maxW minB l acc =
        .ok (acc ++ ((l.takeWhile (fun p => decide (minB ≤ p.1))).take
          (maxW - acc.length)).map (fun p => (p.2, p.1))) := by
  intro l
  induction l with
  | nil =>
    intro acc hlen
    simp only [List.length_nil, Nat.zero_add] at hlen
    unfold selectWinnersLoop
    rw [if_neg (by omega)]
    simp [Nat.sub_eq_zero_of_le hlen]
  | cons p t ih =>
    intro acc hlen
    obtain ⟨c, id⟩ := p
    unfold selectWinnersLoop
    by_cases hsz : acc.length < maxW
    · rw [if_pos hsz]
      by_cases hmb : minB ≤ c
      · rw [if_pos hmb]
        rw [ih (acc ++ [(id, c)]) (by simp at hlen ⊢; omega)]
        rw [List.takeWhile_cons]
        rw [if_pos (by simpa using hmb)]
        rw [show maxW - acc.length = (maxW - (acc.length + 1)) + 1 by
          omega]
        rw [List.take_succ_cons]
        simp [List.append_assoc]
      · rw [if_neg hmb]
        rw [List.takeWhile_cons]
        rw [if_neg (by simpa using hmb)]
        simp
    · rw [if_neg hsz]
      have h0 : maxW - acc.length = 0 := by omega
      simp [h0]

theorem insertByCountDesc_perm {c : Int} {id : Nat} :
    ∀ {m : List (Int × Nat)}, c ∉ m.map (fun p => p.1) →
      List.Perm (insertByCountDesc (c, id) m) ((c, id) :: m) := by
  intro m
  induction m with
  | nil => intro _; simp [insertByCountDesc]
  | cons q t ih =>
    intro h
    obtain ⟨c', id'⟩ := q
    simp only [List.map_cons, List.mem_cons] at h
    push_neg at h
    obtain ⟨hne, hnt⟩ := h
    simp only [insertByCountDesc]
    by_cases h1 : c < c'
    · rw [if_pos h1]
      exact ((ih hnt).cons (c', id')).trans
        (List.Perm.swap (c, id) (c', id') t)
    · rw [if_neg h1, if_neg hne]

theorem insertByCountDesc_sorted {c : Int} {id : Nat} :
    ∀ {m : List (Int × Nat)},
      m.Pairwise (fun a b => b.1 < a.1) → c ∉ m.map (fun p => p.1) →
      (insertByCountDesc (c, id) m).Pairwise (fun a b => b.1 < a.1) := by
  intro m
  induction m with
  | nil => intro _ _; simp [insertByCountDesc]
  | cons q t ih =>
    intro hs h
    obtain ⟨c', id'⟩ := q
    simp only [List.map_cons, List.mem_cons] at h
    push_neg at h
    obtain ⟨hne, hnt⟩ := h
    rw [List.pairwise_cons] at hs
    obtain ⟨hhead, htail⟩ := hs
    simp only [insertByCountDesc]
    by_cases h1 : c < c'
    · rw [if_pos h1]
      rw [List.pairwise_cons]
      refine ⟨?_, ih htail hnt⟩
      intro x hx
      have hx2 := (insertByCountDesc_perm hnt).mem_iff.mp hx
      rcases List.mem_cons.mp hx2 with hx3 | hx3
      · rw [hx3]; exact h1
      · exact hhead x hx3
    · rw [if_neg h1, if_neg hne]
      have hclt : c' < c := by
        rcases lt_trichotomy c c' with hlt | heq | hgt
        · exact absurd hlt h1
        · exact absurd heq hne
        · exact hgt
      rw [List.pairwise_cons]
      refine ⟨?_, by rw [List.pairwise_cons]; exact ⟨hhead, htail⟩⟩
      intro x hx
      rcases List.mem_cons.mp hx with hx2 | hx2
      · rw [hx2]; exact hclt
      · exact lt_trans (hhead x hx2) hclt

theorem buildCountMap_inv :
    ∀ (votes : List (Nat × Int)) (m : List (Int × Nat)),
      m.Pairwise (fun a b => b.1 < a.1) →
      (∀ p ∈ votes, p.2 ∉ m.map (fun q => q.1)) →
      (votes.map (fun p => p.2)).Nodup →
      List.Perm
          (votes.foldl (fun m p => insertByCountDesc (p.2, p.1) m) m)
          ((votes.map (fun p => (p.2, p.1))) ++ m) ∧
        (votes.foldl (fun m p => insertByCountDesc (p.2, p.1) m)
          m).Pairwise (fun a b => b.1 < a.1) := by
  intro votes
  induction votes with
  | nil => intro m hs _ _; exact ⟨by simp, hs⟩
  | cons p t ih =>
    intro m hs hfresh hnd
    have hp : p.2 ∉ m.map (fun q => q.1) := hfresh p (by simp)
    have hperm := @insertByCountDesc_perm p.2 p.1 _ hp
    have hsort := @insertByCountDesc_sorted p.2 p.1 _ hs hp
    simp only [List.map_cons, List.nodup_cons] at hnd
    obtain ⟨hpt, hndt⟩ := hnd
    have hfresh2 : ∀ q ∈ t, q.2 ∉
        (insertByCountDesc (p.2, p.1) m).map (fun q => q.1) := by
      intro q hq hmem
      have hmem2 : q.2 ∈ ((p.2, p.1) :: m).map (fun q => q.1) :=
        (hperm.map (fun q => q.1)).mem_iff.mp hmem
      simp only [List.map_cons, List.mem_cons] at hmem2
      rcases hmem2 with h2 | h2
      · exact hpt (h2 ▸ List.mem_map_of_mem (fun p => p.2) hq)
      · exact hfresh q (by simp [hq]) h2
    obtain ⟨ihp, ihs⟩ := ih (insertByCountDesc (p.2, p.1) m) hsort
      hfresh2 hndt
    rw [List.foldl_cons]
    refine ⟨?_, ihs⟩
    refine ihp.trans ?_
    refine (List.Perm.append_left _ hperm).trans ?_
    refine List.perm_middle.trans ?_
    simp

/-- Descending order on (accountID, votes) pairs by vote count. -/
def byCountDesc (p q : Nat × Int) : Prop := q.2 ≤ p.2

instance : DecidableRel byCountDesc :=
  fun p q => inferInstanceAs (Decidable (q.2 ≤ p.2))

instance : IsTotal (Nat × Int) byCountDesc :=
  ⟨fun a b => le_total b.2 a.2⟩

instance : IsTrans (Nat × Int) byCountDesc :=
  ⟨fun _ _ _ h1 h2 => le_trans h2 h1⟩

/-- The specification-side sort: winners ordered by descending vote count. -/
def sortByCountDesc (votes : List (Nat × Int)) : List (Nat × Int) :=
  List.insertionSort byCountDesc votes

theorem perm_sorted_desc_eq {l1 l2 : List (Int × Nat)}
    (hp : List.Perm l1 l2)
    (h1 : l1.Pairwise (fun a b => b.1 < a.1))
    (h2 : l2.Pairwise (fun a b => b.1 < a.1)) : l1 = l2 := by
  haveI : IsAntisymm (Int × Nat) (fun a b => b.1 < a.1) :=
    ⟨fun a b hab hba => absurd (lt_trans hab hba) (lt_irrefl _)⟩
  exact List.eq_of_perm_of_sorted hp h1 h2

theorem sortByCountDesc_strict {votes : List (Nat × Int)}
    (hdist : votes.Pairwise (fun p q => p.2 ≠ q.2)) :
    (sortByCountDesc votes).Pairwise (fun p q => q.2 < p.2) := by
  have hsorted : (sortByCountDesc votes).Pairwise byCountDesc :=
    List.sorted_insertionSort byCountDesc votes
  have hperm : List.Perm (sortByCountDesc votes) votes :=
    List.perm_insertionSort byCountDesc votes
  have hnd : ((sortByCountDesc votes).map (fun p => p.2)).Nodup := by
    have : (votes.map (fun p => p.2)).Nodup := by
      rw [List.Nodup, List.pairwise_map]
      exact hdist
    exact (hperm.map (fun p => p.2)).nodup_iff.mpr this
  have hne : (sortByCountDesc votes).Pairwise (fun p q => p.2 ≠ q.2) := by
    rw [List.Nodup, List.pairwise_map] at hnd
    exact hnd
  have := hsorted.and hne
  exact this.imp (fun h => lt_of_le_of_ne h.1 (Ne.symm h.2))

theorem takeWhile_eq_filter_sorted (minB : Int) :
    ∀ (l : List (Nat × Int)), l.Pairwise byCountDesc →
      l.takeWhile (fun p => decide (minB ≤ p.2)) =
        l.filter (fun p => decide (minB ≤ p.2)) := by
  intro l
  induction l with
  | nil => intro _; rfl
  | cons p t ih =>
    intro hs
    rw [List.pairwise_cons] at hs
    obtain ⟨hhead, htail⟩ := hs
    by_cases h : minB ≤ p.2
    · rw [List.takeWhile_cons, List.filter_cons]
      rw [if_pos (by simpa using h), if_pos (by simpa using h)]
      rw [ih htail]
    · rw [List.takeWhile_cons, List.filter_cons]
      rw [if_neg (by simpa using h), if_neg (by simpa using h)]
      symm
      rw [List.filter_eq_nil_iff]
      intro x hx
      have hxle : x.2 ≤ p.2 := hhead x hx
      simp only [decide_eq_true_eq]
      omega

theorem takeWhile_map_swap (minB : Int) (l : List (Nat × Int)) :
    (l.map (fun p => (p.2, p.1))).takeWhile
        (fun p => decide (minB ≤ p.1)) =
      (l.takeWhile (fun p => decide (minB ≤ p.2))).map
        (fun p => (p.2, p.1)) := by
  induction l with
  | nil => rfl
  | cons p t ih =>
    rw [List.map_cons, List.takeWhile_cons, List.takeWhile_cons]
    by_cases h : minB ≤ p.2
    · rw [if_pos (by simpa using h), if_pos (by simpa using h)]
      rw [List.map_cons, ih]
    · rw [if_neg (by simpa using h), if_neg (by simpa using h)]
      rfl

/-- C8 (amended): provided the tallied vote counts are pairwise distinct,
when the number of distinct inflation destinations with tallied votes
exceeds max_winners the returned vector consists of the max_winners
destinations with the highest vote counts, in descending vote-count order,
excluding any whose count is below min_balance; when it does not exceed
max_winners the result contains exactly every (id, count) pair with
count ≥ min_balance. (Without the distinctness proviso the count-keyed
std::map collapses equal counts to the last-inserted destination, so the
over-max_winners branch can drop top destinations; see the
counterexample.) -/
theorem c8_winner_selection (bl : BucketListSnapshot) (maxW : Nat)
    (minB : Int)
    (hdist : (inflationVotes bl).Pairwise (fun p q => p.2 ≠ q.2)) :
    (maxW < (inflationVotes bl).length →
        SearchableBucketListSnapshot.loadInflationWinners bl maxW minB =
          .ok (((sortByCountDesc (inflationVotes bl)).filter
            (fun p => decide (minB ≤ p.2))).take maxW)) ∧
      ((inflationVotes bl).length ≤ maxW →
        SearchableBucketListSnapshot.loadInflationWinners bl maxW minB =
          .ok ((inflationVotes bl).filter
            (fun p => decide (minB ≤ p.2)))) := by
  constructor
  · intro hover
    have hnd : ((inflationVotes bl).map (fun p => p.2)).Nodup := by
      rw [List.Nodup, List.pairwise_map]
      exact hdist
    obtain ⟨hMperm, hMsort⟩ :=
      buildCountMap_inv (inflationVotes bl) [] (by simp) (by simp) hnd
    have hMperm2 : List.Perm
        ((inflationVotes bl).foldl
          (fun m p => insertByCountDesc (p.2, p.1) m) [])
        ((inflationVotes bl).map (fun p => (p.2, p.1))) := by
      simpa using hMperm
    have hSperm : List.Perm (sortByCountDesc (inflationVotes bl))
        (inflationVotes bl) := List.perm_insertionSort _ _
    have hSstrict := sortByCountDesc_strict hdist
    have hSmapsort : ((sortByCountDesc (inflationVotes bl)).map
        (fun p => (p.2, p.1))).Pairwise (fun a b => b.1 < a.1) := by
      rw [List.pairwise_map]
      exact hSstrict
    have hMS : (inflationVotes bl).foldl
        (fun m p => insertByCountDesc (p.2, p.1) m) [] =
        (sortByCountDesc (inflationVotes bl)).map (fun p => (p.2, p.1)) := by
      apply perm_sorted_desc_eq ?_ hMsort hSmapsort
      exact hMperm2.trans ((hSperm.map _).symm)
    have hlen : maxW ≤ ((inflationVotes bl).foldl
        (fun m p => insertByCountDesc (p.2, p.1) m) []).length +
        ([] : List (Nat × Int)).length := by
      have hl1 := hMperm2.length_eq
      simp only [List.length_map] at hl1
      simp only [List.length_nil, Nat.add_zero]
      omega
    unfold SearchableBucketListSnapshot.loadInflationWinners
    rw [if_pos hover]
    rw [selectWinnersLoop_ok maxW minB _ [] hlen]
    rw [hMS]
    simp only [List.nil_append, List.length_nil, Nat.sub_zero]
    rw [takeWhile_map_swap]
    rw [← List.map_take, List.map_map]
    have hcomp : ((fun q : Int × Nat => (q.2, q.1)) ∘
        (fun p : Nat × Int => (p.2, p.1))) = id := funext fun p => rfl
    rw [hcomp, List.map_id]
    rw [takeWhile_eq_filter_sorted minB
      (sortByCountDesc (inflationVotes bl))
      (List.sorted_insertionSort byCountDesc (inflationVotes bl))]
  · intro hle
    unfold SearchableBucketListSnapshot.loadInflationWinners
    rw [if_neg (not_lt.mpr hle)]
    rw [foldl_filter_append]
    simp

/-- A live account entry (helper for demo snapshots). -/
def mkAccount (id : Nat) (bal : Int) (dest : Nat) : BucketEntry :=
  .liveEntry (.account
    { accountID := id, balance := bal, inflationDest := some dest })

/-- Demo snapshot with pairwise-distinct vote counts. -/
def demoC8w : BucketListSnapshot :=
  { levels :=
      [ { curr := mkBucket
            [mkAccount 1 2000000000 10, mkAccount 2 3000000000 11,
             mkAccount 3 4000000000 12]
          snap := mkBucket [] } ] }

theorem c8_winner_selection_witness :
    SearchableBucketListSnapshot.loadInflationWinners demoC8w 2 1 =
      .ok (((sortByCountDesc (inflationVotes demoC8w)).filter
        (fun p => decide ((1 : Int) ≤ p.2))).take 2) :=
  (c8_winner_selection demoC8w 2 1 (by decide)).1 (by decide)

/-- Demo snapshot with a tied top vote count (destinations 20 and 21 both
tally 5e9; destination 22 tallies 3e9). -/
def demoC8 : BucketListSnapshot :=
  { levels :=
      [ { curr := mkBucket
            [mkAccount 1 5000000000 20, mkAccount 2 5000000000 21,
             mkAccount 3 3000000000 22]
          snap := mkBucket [] } ] }

/-- C8 counterexample: with three tallied destinations (counts 5e9, 5e9,
3e9) and max_winners = 2, the count-keyed map collapses the tied top count
to the last-inserted destination, and the returned vector is
[(21, 5e9), (22, 3e9)]: it includes destination 22 with count 3e9 while
excluding destination 20 with the strictly higher count 5e9, so it does
not consist of the max_winners destinations with the highest vote counts
as the claim states. -/
theorem c8_counterexample_tied_counts :
    SearchableBucketListSnapshot.loadInflationWinners demoC8 2 1 =
      .ok [(21, 5000000000), (22, 3000000000)] ∧
      inflationVotes demoC8 =
        [(20, 5000000000), (21, 5000000000), (22, 3000000000)] := by
  constructor <;> rfl

/-- Demo snapshot with four tallied destinations all sharing one vote
count. -/
def demoC9 : BucketListSnapshot :=
  { levels :=
      [ { curr := mkBucket
            [mkAccount 1 5000000000 30, mkAccount 2 5000000000 31,
             mkAccount 3 5000000000 32, mkAccount 4 5000000000 33]
          snap := mkBucket [] } ] }

/-- C9: In the over-max_winners branch of load_inflation_winners, for some
input in which distinct inflation destinations have equal vote counts (so
the count-keyed sorted map collapses to fewer than max_winners surviving
entries, all with counts ≥ min_balance), the selection loop's condition
dereferences the map's past-the-end iterator: here four destinations share
one count, voteCount.size() = 4 > maxWinners = 3, the sorted map collapses
to a single entry, and the guard tests iter->first with iter = end
(modelled as the error outcome). -/
theorem c9_selection_dereferences_end :
    SearchableBucketListSnapshot.loadInflationWinners demoC9 3 1 =
      .error "dereferenced past-the-end iterator" := by
  rfl

/-! ### Bulk key loading (BucketSnapshot::loadKeysWithLimits and
SearchableBucketListSnapshot::loadKeysInternal) -/

/-- Modelled from the spec: xdr::xdr_size of a LedgerKey (opaque; only
used as the pre-read charge, with xdr_size(key) ≤ xdr_size(entry) as the
code comment notes). -/
def xdrSizeKey : LedgerKey → Nat
  | .account _ => 36
  | .other _ _ => 44

/-- Modelled from the spec: xdr::xdr_size of a LedgerEntry. -/
def xdrSizeEntry : LedgerEntry → Nat
  | .account _ => 112
  | .other _ _ _ => 120

/-- One transaction's read quota and the keys it reads. Modelled from the
spec: LedgerKeyMeter is a consumed interface (per-transaction read-quota
accounting). -/
structure TxReadQuota where
  keys : List LedgerKey
  quota : Nat
deriving DecidableEq, Repr

/-- Modelled from the spec: LedgerKeyMeter. -/
structure LedgerKeyMeter where
  txs : List TxReadQuota
deriving DecidableEq, Repr

/-- Modelled from the spec: a key may be loaded if some transaction
containing it still has enough remaining quota. -/
def LedgerKeyMeter.canLoad (m : LedgerKeyMeter) (k : LedgerKey)
    (size : Nat) : Bool :=
  m.txs.any (fun t => decide (k ∈ t.keys ∧ size ≤ t.quota))

/-- Modelled from the spec: consume `size` bytes from the quota of every
transaction containing the key (clamped at zero). -/
def LedgerKeyMeter.updateReadQuotasForKey (m : LedgerKeyMeter)
    (k : LedgerKey) (size : Nat) : LedgerKeyMeter :=
  { txs := m.txs.map (fun t =>
      if k ∈ t.keys then { t with quota := t.quota - size } else t) }

/-- A meter after a sequence of updateReadQuotasForKey calls. -/
def applyCharges (m : LedgerKeyMeter) :
    List (LedgerKey × Nat) → LedgerKeyMeter
  | [] => m
  | (k, s) :: rest => applyCharges (m.updateReadQuotasForKey k s) rest

/-- Whether a record sorts strictly below key `k` (META records sort below
every key). The scan cursor advances over such records. -/
def keyBelow (e : BucketEntry) (k : LedgerKey) : Bool :=
  match e.entryKey with
  | none => true
  | some k2 => keyLt k2 k

/-- BucketIndex::scan for an exact in-memory index: advance from absolute
position `i` over records below `k`; report the offset if the record
reached carries identity `k`, else report a miss, either way returning the
advanced cursor. -/
def scanFrom : List BucketEntry → Nat → LedgerKey → Option Nat × Nat
  | [], i, _ => (none, i)
  | e :: rest, i, k =>
    if keyBelow e k then scanFrom rest (i + 1) k
    else if e.entryKey == some k then (some i, i) else (none, i)

def scanIdx (entries : List BucketEntry) (i : Nat) (k : LedgerKey) :
    Option Nat × Nat :=
  scanFrom (entries.drop i) i k

/-- The outputs of a bulk load: the still-pending keys, the loaded
entries, the meter, and the log of updateReadQuotasForKey calls (key and
charged size, in call order). -/
structure LoadKeysResult where
  pending : List LedgerKey
  entries : List LedgerEntry
  meter : Option LedgerKeyMeter
  chargeLog : List (LedgerKey × Nat)
deriving Repr

/-- The while loop of BucketSnapshot::loadKeysWithLimits: walk the sorted
key list against the index cursor; gate each key through the meter before
reading (charging xdr_size(key) and dropping the key on rejection); scan
for the key; on a successful non-dead read charge xdr_size(entry), append
the entry iff the meter permits, and drop the key; on a dead read just
drop the key; keys the scan misses stay pending. -/
def lkLoop (b : BucketSnapshot) : Nat → List LedgerKey →
    Option LedgerKeyMeter → List LedgerEntry →
    List (LedgerKey × Nat) → LoadKeysResult
  | _, [], m, out, log => ⟨[], out, m, log⟩
  | i, k :: rest, m, out, log =>
    if b.entries.length ≤ i then ⟨k :: rest, out, m, log⟩
    else if (match m with
             | some mm => !mm.canLoad k (xdrSizeKey k)
             | none => false) then
      lkLoop b i rest
        (match m with
         | some mm => some (mm.updateReadQuotasForKey k (xdrSizeKey k))
         | none => none)
        out (log ++ [(k, xdrSizeKey k)])
    else
      match scanIdx b.entries i k with
      | (some j, i2) =>
        match (b.getEntryAtOffset k j b.pageSize).1 with
        | some be =>
          if be.isDead then lkLoop b i2 rest m out log
          else
            match m with
            | some mm =>
              lkLoop b i2 rest
                (some (mm.updateReadQuotasForKey k
                  (xdrSizeEntry be.liveData)))
                (if mm.canLoad k (xdrSizeEntry be.liveData) then
                  out ++ [be.liveData] else out)
                (log ++ [(k, xdrSizeEntry be.liveData)])
            | none => lkLoop b i2 rest none (out ++ [be.liveData]) log
        | none =>
          let r := lkLoop b i2 rest m out log
          ⟨k :: r.pending, r.entries, r.meter, r.chargeLog⟩
      | (none, i2) =>
        let r := lkLoop b i2 rest m out log
        ⟨k :: r.pending, r.entries, r.meter, r.chargeLog⟩

/-- BucketSnapshot::loadKeysWithLimits. -/
def BucketSnapshot.loadKeysWithLimits (b : BucketSnapshot)
    (keys : List LedgerKey) (m : Option LedgerKeyMeter)
    (out : List LedgerEntry) (log : List (LedgerKey × Nat)) :
    LoadKeysResult :=
  if b.isEmpty then ⟨keys, out, m, log⟩
  else lkLoop b 0 keys m out log

/-- SearchableBucketListSnapshot::loadKeysInternal: walk the buckets,
loading against the shared shrinking key set, stopping early when it
empties. -/
def SearchableBucketListSnapshot.loadKeysInternal
    (bl : BucketListSnapshot) (inKeys : List LedgerKey)
    (m : Option LedgerKeyMeter) : LoadKeysResult :=
  SearchableBucketListSnapshot.loopAllBuckets bl
    (fun st b =>
      let r := b.loadKeysWithLimits st.pending st.meter st.entries
        st.chargeLog
      (r, r.pending.isEmpty))
    ⟨inKeys, [], m, []⟩

/-- Strictly ascending key list (the std::set iteration order). -/
def SortedKeys (keys : List LedgerKey) : Prop :=
  keys.Pairwise (fun a b => keyLt a b = true)

/-- Well-formed bucket file: records strictly ascending under
BucketEntryIdCmp (META, if present, first). -/
def WFBucket (b : BucketSnapshot) : Prop :=
  b.entries.Pairwise (fun a b => entryLtB a b = true)

-- Scan-cursor lemmas.

theorem keyBelow_ne {e : BucketEntry} {k : LedgerKey}
    (h : keyBelow e k = true) : (e.entryKey == some k) = false := by
  cases he : e.entryKey with
  | none => simp [he]
  | some k2 =>
    have h2 : keyLt k2 k = true := by
      unfold keyBelow at h
      rw [he] at h
      exact h
    by_cases hk : k2 = k
    · subst hk; simp [keyLt_irrefl] at h2
    · simp [hk]

theorem not_below_some {e : BucketEntry} {k : LedgerKey}
    (h : keyBelow e k = false) :
    ∃ kh, e.entryKey = some kh ∧ keyLt kh k = false := by
  unfold keyBelow at h
  cases he : e.entryKey with
  | none => rw [he] at h; cases h
  | some k2 => rw [he] at h; exact ⟨k2, rfl, h⟩

theorem keyLt_of_not_lt_ne {kh k : LedgerKey} (h1 : keyLt kh k = false)
    (h2 : kh ≠ k) : keyLt k kh = true := by
  by_cases h3 : keyLt k kh = true
  · exact h3
  · exact absurd (keyLt_total_eq h1 (by simpa using h3)) h2

theorem keyBelow_mono {e : BucketEntry} {k k2 : LedgerKey}
    (h : keyBelow e k = true) (hlt : keyLt k k2 = true) :
    keyBelow e k2 = true := by
  unfold keyBelow at *
  cases he : e.entryKey with
  | none => rfl
  | some kh => rw [he] at h; exact keyLt_trans h hlt

theorem scanFrom_eq (k : LedgerKey) :
    ∀ (suffix : List BucketEntry) (i : Nat),
      scanFrom suffix i k =
        (match suffix.dropWhile (fun e => keyBelow e k) with
         | [] =>
           (none, i + (suffix.takeWhile (fun e => keyBelow e k)).length)
         | e :: _ =>
           if e.entryKey == some k then
             (some (i + (suffix.takeWhile (fun e => keyBelow e k)).length),
               i + (suffix.takeWhile (fun e => keyBelow e k)).length)
           else
             (none,
               i + (suffix.takeWhile (fun e => keyBelow e k)).length)) := by
  intro suffix
  induction suffix with
  | nil => intro i; rfl
  | cons e rest ih =>
    intro i
    by_cases hb : keyBelow e k = true
    · rw [show scanFrom (e :: rest) i k = scanFrom rest (i + 1) k from by
        simp [scanFrom, hb]]
      rw [ih (i + 1)]
      simp only [List.dropWhile_cons, List.takeWhile_cons, hb, if_true]
      cases hdw : rest.dropWhile (fun e => keyBelow e k) with
      | nil =>
        simp only [hdw, List.length_cons, Prod.mk.injEq, true_and,
          and_true]
        omega
      | cons e2 t2 =>
        simp only [hdw, List.length_cons]
        by_cases he2 : (e2.entryKey == some k) = true
        · simp only [he2, if_true, Prod.mk.injEq, Option.some.injEq,
            true_and, and_true]
          omega
        · rw [if_neg he2, if_neg he2]
          simp only [List.length_cons, Prod.mk.injEq, true_and, and_true]
          omega
    · have hb2 : keyBelow e k = false := by simpa using hb
      simp only [List.dropWhile_cons, List.takeWhile_cons, hb2,
        Bool.false_eq_true, if_false, List.length_nil, Nat.add_zero]
      simp [scanFrom, hb2]

theorem sorted_find?_eq (k : LedgerKey) :
    ∀ (l : List BucketEntry),
      l.Pairwise (fun a b => entryLtB a b = true) →
      l.find? (fun e => e.entryKey == some k) =
        (match l.dropWhile (fun e => keyBelow e k) with
         | [] => none
         | e :: _ => if e.entryKey == some k then some e else none) := by
  intro l
  induction l with
  | nil => intro _; rfl
  | cons e rest ih =>
    intro hs
    rw [List.pairwise_cons] at hs
    obtain ⟨hhead, htail⟩ := hs
    by_cases hb : keyBelow e k = true
    · rw [List.find?_cons_of_neg _ (by simp [keyBelow_ne hb])]
      simp only [List.dropWhile_cons, hb, if_true]
      exact ih htail
    · have hb2 : keyBelow e k = false := by simpa using hb
      simp only [List.dropWhile_cons, hb2, Bool.false_eq_true, if_false]
      by_cases he : (e.entryKey == some k) = true
      · simp [List.find?_cons, he]
      · rw [List.find?_cons_of_neg _ (by simpa using he)]
        rw [if_neg he]
        obtain ⟨kh, hkh, hlt⟩ := not_below_some hb2
        have hkhne : kh ≠ k := by
          intro hc
          subst hc
          simp [hkh] at he
        have hklt : keyLt k kh = true := keyLt_of_not_lt_ne hlt hkhne
        rw [List.find?_eq_none]
        intro e2 he2
        have hlt2 := hhead e2 he2
        unfold entryLtB at hlt2
        rw [hkh] at hlt2
        cases he2k : e2.entryKey with
        | none => rw [he2k] at hlt2; cases hlt2
        | some k2 =>
          rw [he2k] at hlt2
          have : keyLt k k2 = true := keyLt_trans hklt hlt2
          simp only [beq_iff_eq, Option.some.injEq]
          intro hc
          subst hc
          simp [keyLt_irrefl] at this

theorem findKey_of_isEmpty {b : BucketSnapshot} (h : b.isEmpty = true)
    (k : LedgerKey) : b.findKey k = none := by
  have he : b.entries = [] := by
    simpa [BucketSnapshot.isEmpty, List.isEmpty_iff] using h
  simp [BucketSnapshot.findKey, he]

theorem find?_append_none {p : BucketEntry → Bool} :
    ∀ {l1 l2 : List BucketEntry}, l1.find? p = none →
      (l1 ++ l2).find? p = l2.find? p := by
  intro l1
  induction l1 with
  | nil => intro l2 _; rfl
  | cons a t ih =>
    intro l2 h
    by_cases hpa : p a = true
    · simp [List.find?_cons, hpa] at h
    · have hpa2 : p a = false := by simpa using hpa
      simp only [List.find?_cons, hpa2] at h
      simp only [List.cons_append, List.find?_cons, hpa2]
      exact ih h

theorem take_takeWhile_len (p : BucketEntry → Bool) :
    ∀ l : List BucketEntry, l.take (l.takeWhile p).length = l.takeWhile p := by
  intro l
  induction l with
  | nil => rfl
  | cons a t ih =>
    by_cases hpa : p a = true
    · simp [List.takeWhile_cons, hpa, ih]
    · have hpa2 : p a = false := by simpa using hpa
      simp [List.takeWhile_cons, hpa2]

theorem below_of_mem_takeWhile {k : LedgerKey} :
    ∀ {l : List BucketEntry} {e : BucketEntry},
      e ∈ l.takeWhile (fun x => keyBelow x k) → keyBelow e k = true := by
  intro l
  induction l with
  | nil => intro e h; simp at h
  | cons a t ih =>
    intro e h
    rw [List.takeWhile_cons] at h
    by_cases hpa : keyBelow a k = true
    · rw [if_pos hpa] at h
      rcases List.mem_cons.mp h with h1 | h2
      · rw [h1]; exact hpa
      · exact ih h2
    · rw [if_neg hpa] at h
      simp at h

theorem filterMap_none_of {α β : Type} {f : α → Option β} :
    ∀ {l : List α}, (∀ a ∈ l, f a = none) → l.filterMap f = [] := by
  intro l
  induction l with
  | nil => intro _; rfl
  | cons a t ih =>
    intro h
    rw [List.filterMap_cons, h a (by simp)]
    exact ih (fun x hx => h x (by simp [hx]))

theorem found_none_of_below {b : BucketSnapshot} {k : LedgerKey}
    (hall : ∀ e ∈ b.entries, keyBelow e k = true) :
    b.findKey k = none := by
  rw [BucketSnapshot.findKey, List.find?_eq_none]
  intro e he
  simp [keyBelow_ne (hall e he)]

theorem findKey_from_cursor {b : BucketSnapshot} (hwf : WFBucket b)
    {i : Nat} {k : LedgerKey}
    (hinv : ∀ e ∈ b.entries.take i, keyBelow e k = true) :
    b.findKey k =
      (match (b.entries.drop i).dropWhile (fun x => keyBelow x k) with
       | [] => none
       | e :: _ => if e.entryKey == some k then some e else none) := by
  have h1 : (b.entries.take i).find? (fun e => e.entryKey == some k) = none := by
    rw [List.find?_eq_none]
    intro e he
    simp [keyBelow_ne (hinv e he)]
  have h2 : b.findKey k =
      (b.entries.drop i).find? (fun e => e.entryKey == some k) := by
    unfold BucketSnapshot.findKey
    conv_lhs => rw [← List.take_append_drop i b.entries]
    exact find?_append_none h1
  rw [h2]
  exact sorted_find?_eq k _
    (List.Pairwise.sublist (List.drop_sublist i b.entries) hwf)

theorem cursor_getElem {b : BucketSnapshot} {i : Nat} {k : LedgerKey}
    {e : BucketEntry} {t : List BucketEntry}
    (hdw : (b.entries.drop i).dropWhile (fun x => keyBelow x k) = e :: t) :
    b.entries[i +
      ((b.entries.drop i).takeWhile (fun x => keyBelow x k)).length]? =
      some e := by
  have hsp : (b.entries.drop i).takeWhile (fun x => keyBelow x k) ++
      (b.entries.drop i).dropWhile (fun x => keyBelow x k) =
      b.entries.drop i := by simp
  have h0 : ((b.entries.drop i).takeWhile (fun x => keyBelow x k) ++
        (b.entries.drop i).dropWhile (fun x => keyBelow x k))[
        ((b.entries.drop i).takeWhile (fun x => keyBelow x k)).length]? =
      ((b.entries.drop i).dropWhile (fun x => keyBelow x k))[0]? := by
    rw [List.getElem?_append_right (le_refl _)]
    simp
  rw [hsp] at h0
  rw [hdw] at h0
  simp only [List.getElem?_cons_zero] at h0
  rw [← List.getElem?_drop]
  exact h0

theorem cursor_inv_step {b : BucketSnapshot} {i : Nat} {k : LedgerKey}
    {rest : List LedgerKey}
    (hs : SortedKeys (k :: rest))
    (hinv : ∀ k2 ∈ k :: rest, ∀ e ∈ b.entries.take i, keyBelow e k2 = true) :
    ∀ k2 ∈ rest,
      ∀ e ∈ b.entries.take
        (i + ((b.entries.drop i).takeWhile (fun x => keyBelow x k)).length),
        keyBelow e k2 = true := by
  intro k2 hk2 e he
  rw [List.take_add] at he
  rcases List.mem_append.mp he with h1 | h2
  · exact hinv k2 (List.mem_cons_of_mem _ hk2) e h1
  · rw [take_takeWhile_len] at h2
    have hbk : keyBelow e k = true := below_of_mem_takeWhile h2
    have hlt : keyLt k k2 = true := by
      rw [SortedKeys, List.pairwise_cons] at hs
      exact hs.1 k2 hk2
    exact keyBelow_mono hbk hlt

/-- The pointwise contribution of one bucket to a bulk load: the logical
entry for `k`, if live (tombstones and absent keys contribute nothing). -/
def bucketLoadValue (b : BucketSnapshot) (k : LedgerKey) :
    Option LedgerEntry :=
  match b.findKey k with
  | some be => if be.isDead then none else some be.liveData
  | none => none

theorem lkLoop_none {b : BucketSnapshot} (hb : b.Exact) (hwf : WFBucket b) :
    ∀ (keys : List LedgerKey) (i : Nat) (out : List LedgerEntry)
      (log : List (LedgerKey × Nat)),
      SortedKeys keys →
      (∀ k ∈ keys, ∀ e ∈ b.entries.take i, keyBelow e k = true) →
      lkLoop b i keys none out log =
        ⟨keys.filter (fun k => (b.findKey k).isNone),
         out ++ keys.filterMap (bucketLoadValue b),
         none, log⟩ := by
  intro keys
  induction keys with
  | nil => intro i out log _ _; simp [lkLoop]
  | cons k rest ih =>
    intro i out log hs hinv
    have hsrest : SortedKeys rest := by
      rw [SortedKeys, List.pairwise_cons] at hs
      exact hs.2
    by_cases hlen : b.entries.length ≤ i
    · have hall : ∀ k2 ∈ k :: rest, b.findKey k2 = none := by
        intro k2 hk2
        apply found_none_of_below
        intro e he
        have hmem : e ∈ b.entries.take i := by
          rw [List.take_of_length_le hlen]
          exact he
        exact hinv k2 hk2 e hmem
      have hstep : lkLoop b i (k :: rest) none out log =
          ⟨k :: rest, out, none, log⟩ := by
        unfold lkLoop
        rw [if_pos hlen]
      rw [hstep]
      have hf : (k :: rest).filter (fun k2 => (b.findKey k2).isNone) =
          k :: rest := by
        rw [List.filter_eq_self]
        intro k2 hk2
        simp [hall k2 hk2]
      have hm : (k :: rest).filterMap (bucketLoadValue b) = [] := by
        apply filterMap_none_of
        intro k2 hk2
        simp [bucketLoadValue, hall k2 hk2]
      rw [hf, hm, List.append_nil]
    · have hlt : i < b.entries.length := Nat.lt_of_not_le hlen
      have hne : b.isEmpty = false := by
        rw [BucketSnapshot.isEmpty]
        cases hE : b.entries with
        | nil => rw [hE] at hlt; simp at hlt
        | cons a t => rfl
      have hinvk : ∀ e ∈ b.entries.take i, keyBelow e k = true :=
        hinv k (by simp)
      have hscan := scanFrom_eq k (b.entries.drop i) i
      have hfind := findKey_from_cursor hwf hinvk
      have hinv2 := cursor_inv_step hs hinv
      have hg : (match (none : Option LedgerKeyMeter) with
          | some mm => !mm.canLoad k (xdrSizeKey k)
          | none => false) = false := rfl
      cases hdw : (b.entries.drop i).dropWhile (fun x => keyBelow x k) with
      | nil =>
        rw [hdw] at hscan hfind
        have hfind2 : b.findKey k = none := hfind
        have hsi : scanIdx b.entries i k =
            (none,
              i + ((b.entries.drop i).takeWhile
                (fun x => keyBelow x k)).length) := hscan
        unfold lkLoop
        rw [if_neg hlen, hg, if_neg Bool.false_ne_true]
        simp only [hsi]
        rw [ih _ out log hsrest hinv2]
        simp [hfind2, bucketLoadValue]
      | cons e t =>
        rw [hdw] at hscan hfind
        by_cases he : (e.entryKey == some k) = true
        · have hfind2 : b.findKey k = some e := by
            have hf0 : b.findKey k =
                (if (e.entryKey == some k) = true then some e else none) :=
              hfind
            rw [hf0, if_pos he]
          have hsi : scanIdx b.entries i k =
              (some (i + ((b.entries.drop i).takeWhile
                  (fun x => keyBelow x k)).length),
                i + ((b.entries.drop i).takeWhile
                  (fun x => keyBelow x k)).length) := by
            have hs0 : scanFrom (b.entries.drop i) i k =
                (if (e.entryKey == some k) = true then
                  (some (i + ((b.entries.drop i).takeWhile
                      (fun x => keyBelow x k)).length),
                    i + ((b.entries.drop i).takeWhile
                      (fun x => keyBelow x k)).length)
                 else
                  (none, i + ((b.entries.drop i).takeWhile
                    (fun x => keyBelow x k)).length)) := hscan
            rw [if_pos he] at hs0
            exact hs0
          have hget : (b.getEntryAtOffset k
              (i + ((b.entries.drop i).takeWhile
                (fun x => keyBelow x k)).length) b.pageSize).1 = some e := by
            rw [hb.1]
            unfold BucketSnapshot.getEntryAtOffset
            rw [if_neg (by simp [hne]), if_pos rfl, cursor_getElem hdw]
          unfold lkLoop
          rw [if_neg hlen, hg, if_neg Bool.false_ne_true]
          simp only [hsi, hget]
          cases hd : e.isDead with
          | true =>
            rw [if_pos rfl]
            rw [ih _ out log hsrest hinv2]
            simp [hfind2, bucketLoadValue, hd]
          | false =>
            rw [if_neg (by simp)]
            show lkLoop b
              (i + ((b.entries.drop i).takeWhile
                (fun x => keyBelow x k)).length) rest none
              (out ++ [e.liveData]) log = _
            rw [ih _ (out ++ [e.liveData]) log hsrest hinv2]
            simp [hfind2, bucketLoadValue, hd]
        · have hfind2 : b.findKey k = none := by
            have hf0 : b.findKey k =
                (if (e.entryKey == some k) = true then some e else none) :=
              hfind
            rw [hf0, if_neg he]
          have hsi : scanIdx b.entries i k =
              (none,
                i + ((b.entries.drop i).takeWhile
                  (fun x => keyBelow x k)).length) := by
            have hs0 : scanFrom (b.entries.drop i) i k =
                (if (e.entryKey == some k) = true then
                  (some (i + ((b.entries.drop i).takeWhile
                      (fun x => keyBelow x k)).length),
                    i + ((b.entries.drop i).takeWhile
                      (fun x => keyBelow x k)).length)
                 else
                  (none, i + ((b.entries.drop i).takeWhile
                    (fun x => keyBelow x k)).length)) := hscan
            rw [if_neg he] at hs0
            exact hs0
          unfold lkLoop
          rw [if_neg hlen, hg, if_neg Bool.false_ne_true]
          simp only [hsi]
          rw [ih _ out log hsrest hinv2]
          simp [hfind2, bucketLoadValue]

theorem loadKeysWithLimits_none {b : BucketSnapshot} (hb : b.Exact)
    (hwf : WFBucket b) (keys : List LedgerKey) (out : List LedgerEntry)
    (log : List (LedgerKey × Nat)) (hs : SortedKeys keys) :
    b.loadKeysWithLimits keys none out log =
      ⟨keys.filter (fun k => (b.findKey k).isNone),
       out ++ keys.filterMap (bucketLoadValue b),
       none, log⟩ := by
  unfold BucketSnapshot.loadKeysWithLimits
  by_cases he : b.isEmpty = true
  · rw [if_pos he]
    have hall : ∀ k ∈ keys, b.findKey k = none := fun k _ =>
      findKey_of_isEmpty he k
    have hf : keys.filter (fun k => (b.findKey k).isNone) = keys := by
      rw [List.filter_eq_self]
      intro k2 hk2
      simp [hall k2 hk2]
    have hm : keys.filterMap (bucketLoadValue b) = [] := by
      apply filterMap_none_of
      intro k2 hk2
      simp [bucketLoadValue, hall k2 hk2]
    rw [hf, hm, List.append_nil]
  · rw [if_neg he]
    exact lkLoop_none hb hwf keys 0 out log hs (by simp)

/-- The logical lookup walk over a list of buckets: the first bucket whose
file contains a record for `k` decides. -/
def bucketsFind (k : LedgerKey) : List BucketSnapshot → Option BucketEntry
  | [] => none
  | b :: rest =>
    match b.findKey k with
    | some be => some be
    | none => bucketsFind k rest

/-- The pointwise value of the bucket-list walk: the first record for `k`
decides, tombstones and absence give nothing. -/
def bucketsLoadValue (k : LedgerKey) (bs : List BucketSnapshot) :
    Option LedgerEntry :=
  match bucketsFind k bs with
  | some be => if be.isDead then none else some be.liveData
  | none => none

theorem filterMap_or_perm {α β : Type} (f g : α → Option β) :
    ∀ (l : List α), (∀ a ∈ l, f a = none ∨ g a = none) →
      List.Perm (l.filterMap f ++ l.filterMap g)
        (l.filterMap (fun a => (f a).or (g a))) := by
  intro l
  induction l with
  | nil => intro _; exact List.Perm.refl _
  | cons a t ih =>
    intro h
    have ht : ∀ x ∈ t, f x = none ∨ g x = none := fun x hx =>
      h x (by simp [hx])
    cases hf : f a with
    | some v =>
      have hg : g a = none := by
        rcases h a (by simp) with h1 | h1
        · rw [hf] at h1; cases h1
        · exact h1
      simp only [List.filterMap_cons, hf, hg, Option.or]
      exact (ih ht).cons v
    | none =>
      cases hg : g a with
      | some w =>
        simp only [List.filterMap_cons, hf, hg, Option.or]
        refine List.Perm.trans ?_ ((ih ht).cons w)
        exact List.perm_middle
      | none =>
        simp only [List.filterMap_cons, hf, hg, Option.or]
        exact ih ht

theorem filterMap_filter {α β : Type} (p : α → Bool) (g : α → Option β) :
    ∀ (l : List α),
      (l.filter p).filterMap g =
        l.filterMap (fun a => if p a then g a else none) := by
  intro l
  induction l with
  | nil => rfl
  | cons a t ih =>
    by_cases hp : p a = true
    · simp only [List.filter_cons, hp, if_true, List.filterMap_cons, ih]
    · have hp2 : p a = false := by simpa using hp
      simp only [List.filter_cons, hp2, Bool.false_eq_true, if_false,
        List.filterMap_cons, ih]

theorem filter_and_filter {α : Type} (p q : α → Bool) :
    ∀ (l : List α),
      (l.filter p).filter q = l.filter (fun a => p a && q a) := by
  intro l
  induction l with
  | nil => rfl
  | cons a t ih =>
    by_cases hp : p a = true
    · by_cases hq : q a = true
      · simp [List.filter_cons, hp, hq, ih]
      · have hq2 : q a = false := by simpa using hq
        simp [List.filter_cons, hp, hq2, ih]
    · have hp2 : p a = false := by simpa using hp
      simp [List.filter_cons, hp2, ih]

theorem filterMap_congr_mem {α β : Type} {f g : α → Option β} :
    ∀ {l : List α}, (∀ a ∈ l, f a = g a) → l.filterMap f = l.filterMap g := by
  intro l
  induction l with
  | nil => intro _; rfl
  | cons a t ih =>
    intro h
    rw [List.filterMap_cons, List.filterMap_cons, h a (by simp),
      ih (fun x hx => h x (by simp [hx]))]

theorem filter_congr_mem {α : Type} {p q : α → Bool} :
    ∀ {l : List α}, (∀ a ∈ l, p a = q a) → l.filter p = l.filter q := by
  intro l
  induction l with
  | nil => intro _; rfl
  | cons a t ih =>
    intro h
    rw [List.filter_cons, List.filter_cons, h a (by simp),
      ih (fun x hx => h x (by simp [hx]))]

theorem loadKeys_loop_cascade :
    ∀ (bs : List BucketSnapshot), (∀ b ∈ bs, b.Exact ∧ WFBucket b) →
      ∀ (keys : List LedgerKey) (out : List LedgerEntry)
        (log : List (LedgerKey × Nat)), SortedKeys keys →
      (loopBuckets
          (fun st b =>
            let r := b.loadKeysWithLimits st.pending st.meter st.entries
              st.chargeLog
            (r, r.pending.isEmpty))
          bs ⟨keys, out, none, log⟩).pending =
        keys.filter (fun k => (bucketsFind k bs).isNone) ∧
      (loopBuckets
          (fun st b =>
            let r := b.loadKeysWithLimits st.pending st.meter st.entries
              st.chargeLog
            (r, r.pending.isEmpty))
          bs ⟨keys, out, none, log⟩).meter = none ∧
      (loopBuckets
          (fun st b =>
            let r := b.loadKeysWithLimits st.pending st.meter st.entries
              st.chargeLog
            (r, r.pending.isEmpty))
          bs ⟨keys, out, none, log⟩).chargeLog = log ∧
      List.Perm
        (loopBuckets
          (fun st b =>
            let r := b.loadKeysWithLimits st.pending st.meter st.entries
              st.chargeLog
            (r, r.pending.isEmpty))
          bs ⟨keys, out, none, log⟩).entries
        (out ++ keys.filterMap (fun k => bucketsLoadValue k bs)) := by
  intro bs
  induction bs with
  | nil =>
    intro _ keys out log _
    refine ⟨?_, rfl, rfl, ?_⟩
    · show keys = _
      symm
      rw [List.filter_eq_self]
      intro k _
      simp [bucketsFind]
    · show List.Perm out _
      have hm : keys.filterMap (fun k => bucketsLoadValue k []) = [] := by
        apply filterMap_none_of
        intro k _
        simp [bucketsLoadValue, bucketsFind]
      rw [hm, List.append_nil]
  | cons b rest ih =>
    intro hx keys out log hs
    have hbex : b.Exact := (hx b (by simp)).1
    have hbwf : WFBucket b := (hx b (by simp)).2
    have hxr : ∀ b2 ∈ rest, b2.Exact ∧ WFBucket b2 := fun b2 h2 =>
      hx b2 (by simp [h2])
    by_cases hemp : b.isEmpty = true
    · have hloop : loopBuckets
          (fun st b =>
            let r := b.loadKeysWithLimits st.pending st.meter st.entries
              st.chargeLog
            (r, r.pending.isEmpty))
          (b :: rest) ⟨keys, out, none, log⟩ =
          loopBuckets
            (fun st b =>
              let r := b.loadKeysWithLimits st.pending st.meter st.entries
                st.chargeLog
              (r, r.pending.isEmpty))
            rest ⟨keys, out, none, log⟩ := by
        simp only [loopBuckets]
        rw [if_pos hemp]
      have hbf : ∀ k3, bucketsFind k3 (b :: rest) = bucketsFind k3 rest := by
        intro k3
        simp [bucketsFind, findKey_of_isEmpty hemp k3]
      have hbv : ∀ k3,
          bucketsLoadValue k3 (b :: rest) = bucketsLoadValue k3 rest := by
        intro k3
        unfold bucketsLoadValue
        rw [hbf k3]
      obtain ⟨hp, hm, hl, hperm⟩ := ih hxr keys out log hs
      rw [hloop]
      refine ⟨?_, hm, hl, ?_⟩
      · rw [hp]
        apply filter_congr_mem
        intro k3 _
        rw [hbf k3]
      · refine hperm.trans ?_
        have : keys.filterMap (fun k => bucketsLoadValue k rest) =
            keys.filterMap (fun k => bucketsLoadValue k (b :: rest)) :=
          filterMap_congr_mem (fun k3 _ => (hbv k3).symm)
        rw [this]
    · have hr := loadKeysWithLimits_none hbex hbwf keys out log hs
      have hloop : loopBuckets
          (fun st b =>
            let r := b.loadKeysWithLimits st.pending st.meter st.entries
              st.chargeLog
            (r, r.pending.isEmpty))
          (b :: rest) ⟨keys, out, none, log⟩ =
          (if (keys.filter (fun k => (b.findKey k).isNone)).isEmpty then
            (⟨keys.filter (fun k => (b.findKey k).isNone),
              out ++ keys.filterMap (bucketLoadValue b), none,
              log⟩ : LoadKeysResult)
          else
            loopBuckets
              (fun st b =>
                let r := b.loadKeysWithLimits st.pending st.meter st.entries
                  st.chargeLog
                (r, r.pending.isEmpty))
              rest ⟨keys.filter (fun k => (b.findKey k).isNone),
                out ++ keys.filterMap (bucketLoadValue b), none, log⟩) := by
        simp only [loopBuckets]
        rw [if_neg hemp]
        simp only [hr]
        cases hie : (keys.filter (fun k => (b.findKey k).isNone)).isEmpty with
        | true => rw [if_pos rfl]
        | false => rw [if_neg (by simp)]
      rw [hloop]
      by_cases hie : (keys.filter (fun k => (b.findKey k).isNone)).isEmpty =
          true
      · rw [if_pos hie]
        have hnil : keys.filter (fun k => (b.findKey k).isNone) = [] := by
          simpa [List.isEmpty_iff] using hie
        have hfound : ∀ k3 ∈ keys, ∃ be, b.findKey k3 = some be := by
          intro k3 hk3
          have := List.filter_eq_nil_iff.mp hnil k3 hk3
          cases hbe : b.findKey k3 with
          | none => rw [hbe] at this; simp at this
          | some be => exact ⟨be, rfl⟩
        refine ⟨?_, rfl, rfl, ?_⟩
        · rw [hnil]
          symm
          rw [List.filter_eq_nil_iff]
          intro k3 hk3
          obtain ⟨be, hbe⟩ := hfound k3 hk3
          simp [bucketsFind, hbe]
        · have : keys.filterMap (bucketLoadValue b) =
              keys.filterMap (fun k => bucketsLoadValue k (b :: rest)) := by
            apply filterMap_congr_mem
            intro k3 hk3
            obtain ⟨be, hbe⟩ := hfound k3 hk3
            simp [bucketLoadValue, bucketsLoadValue, bucketsFind, hbe]
          rw [← this]
      · rw [if_neg hie]
        have hs2 : SortedKeys (keys.filter
            (fun k => (b.findKey k).isNone)) :=
          List.Pairwise.filter _ hs
        obtain ⟨hp, hm, hl, hperm⟩ := ih hxr
          (keys.filter (fun k => (b.findKey k).isNone))
          (out ++ keys.filterMap (bucketLoadValue b)) log hs2
        refine ⟨?_, hm, hl, ?_⟩
        · rw [hp, filter_and_filter]
          apply filter_congr_mem
          intro k3 _
          cases hbe : b.findKey k3 with
          | some be => simp [bucketsFind, hbe]
          | none => simp [bucketsFind, hbe]
        · refine hperm.trans ?_
          rw [filterMap_filter, List.append_assoc]
          refine List.Perm.append_left out ?_
          have hdisj : ∀ k3 ∈ keys,
              bucketLoadValue b k3 = none ∨
              (if (b.findKey k3).isNone then bucketsLoadValue k3 rest
                else none) = none := by
            intro k3 _
            cases hbe : b.findKey k3 with
            | some be => right; simp [hbe]
            | none => left; simp [bucketLoadValue, hbe]
          refine (filterMap_or_perm _ _ keys hdisj).trans ?_
          apply List.Perm.of_eq
          apply filterMap_congr_mem
          intro k3 _
          cases hbe : b.findKey k3 with
          | some be =>
            simp [bucketLoadValue, bucketsLoadValue, bucketsFind, hbe,
              Option.or_none]
          | none =>
            simp [bucketLoadValue, bucketsLoadValue, bucketsFind, hbe,
              Option.none_or]

theorem firstBucketDecision_eq_bucketsLoadValue (k : LedgerKey) :
    ∀ (bs : List BucketSnapshot), (∀ b ∈ bs, b.Exact) →
      firstBucketDecision k bs = bucketsLoadValue k bs := by
  intro bs
  induction bs with
  | nil => intro _; rfl
  | cons b rest ih =>
    intro hx
    have hbx : b.Exact := hx b (by simp)
    have hxr : ∀ b2 ∈ rest, b2.Exact := fun b2 h2 => hx b2 (by simp [h2])
    by_cases hemp : b.isEmpty = true
    · have hfk : b.findKey k = none := findKey_of_isEmpty hemp k
      simp [firstBucketDecision, hemp, ih hxr, bucketsLoadValue,
        bucketsFind, hfk]
    · have hge : b.getBucketEntry k = b.findKey k :=
        getBucketEntry_exact hbx k
      cases hfk : b.findKey k with
      | none =>
        rw [hfk] at hge
        simp [firstBucketDecision, hemp, hge, ih hxr, bucketsLoadValue,
          bucketsFind, hfk]
      | some be =>
        rw [hfk] at hge
        have hkey : be.entryKey = some k := by
          have h0 : b.entries.find? (fun e => e.entryKey == some k) =
              some be := hfk
          have h1 := List.find?_some h0
          simpa using h1
        cases be with
        | deadEntry dk =>
          simp [firstBucketDecision, hemp, hge, bucketsLoadValue,
            bucketsFind, hfk, BucketEntry.isDead]
        | liveEntry le =>
          simp [firstBucketDecision, hemp, hge, bucketsLoadValue,
            bucketsFind, hfk, BucketEntry.isDead, BucketEntry.liveData]
        | initEntry le =>
          simp [firstBucketDecision, hemp, hge, bucketsLoadValue,
            bucketsFind, hfk, BucketEntry.isDead, BucketEntry.liveData]
        | metaEntry m => simp [BucketEntry.entryKey] at hkey

/-- C2: For every key set K (a sorted key list, as std::set iterates) and a
fixed snapshot whose bucket indices are exact and whose bucket files are
sorted, the bulk lookup loadKeysInternal(K, no meter) returns, as a multiset,
exactly one entry per key of K that the point lookup getLedgerEntryInternal
resolves to a live value, and nothing for keys that are absent or
tombstoned. -/
theorem c2_bulk_load_matches_point_lookups (bl : BucketListSnapshot)
    (keys : List LedgerKey)
    (hx : ∀ b ∈ bl.allBuckets, b.Exact ∧ WFBucket b)
    (hs : SortedKeys keys) :
    List.Perm
      (SearchableBucketListSnapshot.loadKeysInternal bl keys none).entries
      (keys.filterMap
        (fun k =>
          SearchableBucketListSnapshot.getLedgerEntryInternal bl k)) := by
  obtain ⟨_, _, _, hperm⟩ := loadKeys_loop_cascade bl.allBuckets hx keys [] [] hs
  unfold SearchableBucketListSnapshot.loadKeysInternal
    SearchableBucketListSnapshot.loopAllBuckets
  refine hperm.trans ?_
  apply List.Perm.of_eq
  simp only [List.nil_append]
  apply filterMap_congr_mem
  intro k3 _
  have h1 : SearchableBucketListSnapshot.getLedgerEntryInternal bl k3 =
      firstBucketDecision k3 bl.allBuckets := by
    unfold SearchableBucketListSnapshot.getLedgerEntryInternal
      SearchableBucketListSnapshot.loopAllBuckets
    exact getLedgerEntryInternal_loop k3 bl.allBuckets
      (fun b hb => (hx b hb).1)
  rw [h1, firstBucketDecision_eq_bucketsLoadValue k3 bl.allBuckets
    (fun b hb => (hx b hb).1)]

/-- Demo snapshot for the bulk load: L0.curr tombstones account 1 and holds
account 2, L1.curr holds the shadowed account 1 and a non-account entry. -/
def demoC2bl : BucketListSnapshot :=
  { levels :=
      [ { curr := mkBucket
            [.deadEntry (.account 1),
             .liveEntry (.account { accountID := 2, balance := 10,
                                    inflationDest := none })]
          snap := mkBucket [] }
      , { curr := mkBucket
            [.liveEntry (.account { accountID := 1, balance := 5,
                                    inflationDest := none }),
             .liveEntry (.other 3 7 42)]
          snap := mkBucket [] } ] }

def demoC2keys : List LedgerKey :=
  [.account 1, .account 2, .account 3, .other 3 7]

theorem c2_bulk_load_matches_point_lookups_witness :
    SortedKeys demoC2keys ∧
    List.Perm
      (SearchableBucketListSnapshot.loadKeysInternal demoC2bl demoC2keys
        none).entries
      (demoC2keys.filterMap
        (fun k =>
          SearchableBucketListSnapshot.getLedgerEntryInternal demoC2bl k)) := by
  refine ⟨?_, c2_bulk_load_matches_point_lookups demoC2bl demoC2keys ?_ ?_⟩
  · unfold SortedKeys
    decide
  · intro b hb
    simp only [demoC2bl, BucketListSnapshot.allBuckets, List.flatMap_cons,
      List.flatMap_nil, List.append_nil, List.cons_append, List.nil_append,
      List.mem_cons, List.not_mem_nil, or_false] at hb
    rcases hb with rfl | rfl | rfl | rfl <;>
      exact ⟨mkBucket_exact _, by unfold WFBucket mkBucket; decide⟩
  · unfold SortedKeys
    decide

theorem dropWhile_head_false {p : BucketEntry → Bool} :
    ∀ {l : List BucketEntry} {e : BucketEntry} {t : List BucketEntry},
      l.dropWhile p = e :: t → p e = false := by
  intro l
  induction l with
  | nil => intro e t h; simp at h
  | cons a r ih =>
    intro e t h
    rw [List.dropWhile_cons] at h
    by_cases hpa : p a = true
    · rw [if_pos hpa] at h
      exact ih h
    · rw [if_neg hpa] at h
      cases h
      simpa using hpa

theorem scan_end_true {b : BucketSnapshot} {i : Nat} {k : LedgerKey}
    (hinv : ∀ e ∈ b.entries.take i, keyBelow e k = true)
    (hdw : (b.entries.drop i).dropWhile (fun x => keyBelow x k) = []) :
    b.entries.length ≤
      i + ((b.entries.drop i).takeWhile (fun x => keyBelow x k)).length ∧
    b.entries.all (fun e => keyBelow e k) = true := by
  have hsp : (b.entries.drop i).takeWhile (fun x => keyBelow x k) ++
      (b.entries.drop i).dropWhile (fun x => keyBelow x k) =
      b.entries.drop i := by simp
  rw [hdw, List.append_nil] at hsp
  constructor
  · have hlen : ((b.entries.drop i).takeWhile
        (fun x => keyBelow x k)).length = b.entries.length - i := by
      rw [hsp, List.length_drop]
    omega
  · rw [List.all_eq_true]
    intro e he
    rw [← List.take_append_drop i b.entries] at he
    rcases List.mem_append.mp he with h1 | h2
    · exact hinv e h1
    · rw [← hsp] at h2
      exact below_of_mem_takeWhile h2

theorem scan_end_false {b : BucketSnapshot} {i : Nat} {k : LedgerKey}
    {e : BucketEntry} {t : List BucketEntry}
    (hdw : (b.entries.drop i).dropWhile (fun x => keyBelow x k) = e :: t) :
    ¬(b.entries.length ≤
        i + ((b.entries.drop i).takeWhile (fun x => keyBelow x k)).length) ∧
    b.entries.all (fun e => keyBelow e k) = false := by
  have hsp : (b.entries.drop i).takeWhile (fun x => keyBelow x k) ++
      (b.entries.drop i).dropWhile (fun x => keyBelow x k) =
      b.entries.drop i := by simp
  have hmeme : e ∈ b.entries := by
    have h1 : e ∈ (b.entries.drop i).dropWhile (fun x => keyBelow x k) := by
      rw [hdw]; simp
    have h2 : e ∈ b.entries.drop i :=
      List.Sublist.mem h1 (List.dropWhile_sublist _)
    exact List.Sublist.mem h2 (List.drop_sublist i b.entries)
  have hpe : keyBelow e k = false := dropWhile_head_false hdw
  constructor
  · have hlen := congrArg List.length hsp
    rw [List.length_append, hdw, List.length_cons, List.length_drop]
      at hlen
    have hi : i ≤ b.entries.length ∨ b.entries.length < i := le_or_lt _ _
    rcases hi with h1 | h1
    · omega
    · rw [List.drop_eq_nil_of_le (le_of_lt h1)] at hdw
      simp at hdw
  · have : ¬(b.entries.all (fun x => keyBelow x k) = true) := by
      rw [List.all_eq_true]
      intro hall
      rw [hall e hmeme] at hpe
      cases hpe
    simpa using this

/-- The amended per-key metering outcomes of one bucket's
loadKeysWithLimits, written from the spec's words: keys are walked in
sorted order; a key is (a) rejected by the pre-read gate, charged
xdr_size(key) and dropped; or (b) found live/init, charged
xdr_size(entry), appended iff can_load still permits, and dropped; or
(c) found dead, dropped with no charge; or (d) not found, kept pending
with no charge. Once every file record sorts strictly below a key that
reached the scan stage, the index cursor is exhausted (`fin`) and every
later key stays pending with no gate evaluation. -/
def loadKeysSpecM (b : BucketSnapshot) :
    List LedgerKey → LedgerKeyMeter → Bool → LoadKeysResult
  | [], m, _ => ⟨[], [], some m, []⟩
  | k :: rest, m, fin =>
    if fin then ⟨k :: rest, [], some m, []⟩
    else if !m.canLoad k (xdrSizeKey k) then
      let r := loadKeysSpecM b rest
        (m.updateReadQuotasForKey k (xdrSizeKey k)) fin
      ⟨r.pending, r.entries, r.meter, (k, xdrSizeKey k) :: r.chargeLog⟩
    else
      let fin2 := b.entries.all (fun e => keyBelow e k)
      match b.findKey k with
      | some be =>
        if be.isDead then loadKeysSpecM b rest m fin2
        else
          let r := loadKeysSpecM b rest
            (m.updateReadQuotasForKey k (xdrSizeEntry be.liveData)) fin2
          ⟨r.pending,
           if m.canLoad k (xdrSizeEntry be.liveData) then
             be.liveData :: r.entries
           else r.entries,
           r.meter, (k, xdrSizeEntry be.liveData) :: r.chargeLog⟩
      | none =>
        let r := loadKeysSpecM b rest m fin2
        ⟨k :: r.pending, r.entries, r.meter, r.chargeLog⟩

theorem lkLoop_some {b : BucketSnapshot} (hb : b.Exact) (hwf : WFBucket b) :
    ∀ (keys : List LedgerKey) (i : Nat) (m : LedgerKeyMeter)
      (out : List LedgerEntry) (log : List (LedgerKey × Nat)),
      SortedKeys keys →
      (∀ k ∈ keys, ∀ e ∈ b.entries.take i, keyBelow e k = true) →
      lkLoop b i keys (some m) out log =
        ⟨(loadKeysSpecM b keys m
            (decide (b.entries.length ≤ i))).pending,
         out ++ (loadKeysSpecM b keys m
            (decide (b.entries.length ≤ i))).entries,
         (loadKeysSpecM b keys m
            (decide (b.entries.length ≤ i))).meter,
         log ++ (loadKeysSpecM b keys m
            (decide (b.entries.length ≤ i))).chargeLog⟩ := by
  intro keys
  induction keys with
  | nil => intro i m out log _ _; simp [lkLoop, loadKeysSpecM]
  | cons k rest ih =>
    intro i m out log hs hinv
    have hsrest : SortedKeys rest := by
      rw [SortedKeys, List.pairwise_cons] at hs
      exact hs.2
    by_cases hlen : b.entries.length ≤ i
    · have hd : decide (b.entries.length ≤ i) = true := decide_eq_true hlen
      rw [hd]
      have hstep : lkLoop b i (k :: rest) (some m) out log =
          ⟨k :: rest, out, some m, log⟩ := by
        unfold lkLoop
        rw [if_pos hlen]
      rw [hstep]
      simp [loadKeysSpecM]
    · have hdec : decide (b.entries.length ≤ i) = false :=
        decide_eq_false hlen
      rw [hdec]
      have hlt : i < b.entries.length := Nat.lt_of_not_le hlen
      have hne : b.isEmpty = false := by
        rw [BucketSnapshot.isEmpty]
        cases hE : b.entries with
        | nil => rw [hE] at hlt; simp at hlt
        | cons a t => rfl
      have hinvk : ∀ e ∈ b.entries.take i, keyBelow e k = true :=
        hinv k (by simp)
      have hinvr : ∀ k2 ∈ rest, ∀ e ∈ b.entries.take i,
          keyBelow e k2 = true := fun k2 h2 => hinv k2 (by simp [h2])
      have hscan := scanFrom_eq k (b.entries.drop i) i
      have hfind := findKey_from_cursor hwf hinvk
      have hinv2 := cursor_inv_step hs hinv
      cases hcl : m.canLoad k (xdrSizeKey k) with
      | false =>
        have hg : (match (some m : Option LedgerKeyMeter) with
            | some mm => !mm.canLoad k (xdrSizeKey k)
            | none => false) = true := by
          simp [hcl]
        unfold lkLoop
        rw [if_neg hlen, hg, if_pos rfl]
        show lkLoop b i rest
            (some (m.updateReadQuotasForKey k (xdrSizeKey k))) out
            (log ++ [(k, xdrSizeKey k)]) = _
        rw [ih i _ out (log ++ [(k, xdrSizeKey k)]) hsrest hinvr, hdec]
        simp only [loadKeysSpecM, Bool.false_eq_true, if_false, hcl,
          Bool.not_false, if_pos rfl]
        simp [List.append_assoc]
      | true =>
        have hg : (match (some m : Option LedgerKeyMeter) with
            | some mm => !mm.canLoad k (xdrSizeKey k)
            | none => false) = false := by
          simp [hcl]
        cases hdw : (b.entries.drop i).dropWhile
            (fun x => keyBelow x k) with
        | nil =>
          rw [hdw] at hscan hfind
          have hfind2 : b.findKey k = none := hfind
          have hsi : scanIdx b.entries i k =
              (none,
                i + ((b.entries.drop i).takeWhile
                  (fun x => keyBelow x k)).length) := hscan
          obtain ⟨hend, hall⟩ := scan_end_true hinvk hdw
          have hdec2 : decide (b.entries.length ≤
              i + ((b.entries.drop i).takeWhile
                (fun x => keyBelow x k)).length) = true :=
            decide_eq_true hend
          unfold lkLoop
          rw [if_neg hlen, hg, if_neg Bool.false_ne_true]
          simp only [hsi]
          rw [ih _ m out log hsrest hinv2, hdec2]
          simp only [loadKeysSpecM, Bool.false_eq_true, if_false, hcl,
            Bool.not_true, hfind2, hall]
        | cons e t =>
          rw [hdw] at hscan hfind
          obtain ⟨hend, hall⟩ := scan_end_false hdw
          have hdec2 : decide (b.entries.length ≤
              i + ((b.entries.drop i).takeWhile
                (fun x => keyBelow x k)).length) = false :=
            decide_eq_false hend
          by_cases he : (e.entryKey == some k) = true
          · have hfind2 : b.findKey k = some e := by
              have hf0 : b.findKey k =
                  (if (e.entryKey == some k) = true then some e
                   else none) := hfind
              rw [hf0, if_pos he]
            have hsi : scanIdx b.entries i k =
                (some (i + ((b.entries.drop i).takeWhile
                    (fun x => keyBelow x k)).length),
                  i + ((b.entries.drop i).takeWhile
                    (fun x => keyBelow x k)).length) := by
              have hs0 : scanFrom (b.entries.drop i) i k =
                  (if (e.entryKey == some k) = true then
                    (some (i + ((b.entries.drop i).takeWhile
                        (fun x => keyBelow x k)).length),
                      i + ((b.entries.drop i).takeWhile
                        (fun x => keyBelow x k)).length)
                   else
                    (none, i + ((b.entries.drop i).takeWhile
                      (fun x => keyBelow x k)).length)) := hscan
              rw [if_pos he] at hs0
              exact hs0
            have hget : (b.getEntryAtOffset k
                (i + ((b.entries.drop i).takeWhile
                  (fun x => keyBelow x k)).length) b.pageSize).1 =
                some e := by
              rw [hb.1]
              unfold BucketSnapshot.getEntryAtOffset
              rw [if_neg (by simp [hne]), if_pos rfl, cursor_getElem hdw]
            unfold lkLoop
            rw [if_neg hlen, hg, if_neg Bool.false_ne_true]
            simp only [hsi, hget]
            cases hdead : e.isDead with
            | true =>
              rw [if_pos rfl]
              rw [ih _ m out log hsrest hinv2, hdec2]
              simp [loadKeysSpecM, hcl, hfind2, hall, hdead]
            | false =>
              rw [if_neg (by simp)]
              show lkLoop b
                (i + ((b.entries.drop i).takeWhile
                  (fun x => keyBelow x k)).length) rest
                (some (m.updateReadQuotasForKey k
                  (xdrSizeEntry e.liveData)))
                (if m.canLoad k (xdrSizeEntry e.liveData) then
                  out ++ [e.liveData] else out)
                (log ++ [(k, xdrSizeEntry e.liveData)]) = _
              rw [ih _ _ _ (log ++ [(k, xdrSizeEntry e.liveData)])
                hsrest hinv2, hdec2]
              simp only [loadKeysSpecM, Bool.false_eq_true, if_false,
                hcl, Bool.not_true, hfind2, hall, hdead]
              cases hcl2 : m.canLoad k (xdrSizeEntry e.liveData) with
              | true =>
                rw [if_pos rfl, if_pos rfl]
                simp [List.append_assoc]
              | false =>
                rw [if_neg (by simp), if_neg (by simp)]
                simp [List.append_assoc]
          · have hfind2 : b.findKey k = none := by
              have hf0 : b.findKey k =
                  (if (e.entryKey == some k) = true then some e
                   else none) := hfind
              rw [hf0, if_neg he]
            have hsi : scanIdx b.entries i k =
                (none,
                  i + ((b.entries.drop i).takeWhile
                    (fun x => keyBelow x k)).length) := by
              have hs0 : scanFrom (b.entries.drop i) i k =
                  (if (e.entryKey == some k) = true then
                    (some (i + ((b.entries.drop i).takeWhile
                        (fun x => keyBelow x k)).length),
                      i + ((b.entries.drop i).takeWhile
                        (fun x => keyBelow x k)).length)
                   else
                    (none, i + ((b.entries.drop i).takeWhile
                      (fun x => keyBelow x k)).length)) := hscan
              rw [if_neg he] at hs0
              exact hs0
            unfold lkLoop
            rw [if_neg hlen, hg, if_neg Bool.false_ne_true]
            simp only [hsi]
            rw [ih _ m out log hsrest hinv2, hdec2]
            simp only [loadKeysSpecM, Bool.false_eq_true, if_false, hcl,
              Bool.not_true, hfind2, hall]

/-- C6 (amended): For every metered bulk load on a bucket with an exact
index and a sorted file, each key of the sorted input either (a) is
rejected by the pre-read gate, charged exactly xdr_size(key) and removed
from the pending set; or (b) is found live/init, charged xdr_size(entry)
regardless of the can_load outcome, appended to the result iff can_load
permitted it, and removed; or (c) is found as a DeadEntry and removed with
no charge and no append; or (d) is not found in this bucket and stays
pending with no charge; and keys reached after the index cursor is
exhausted stay pending with no gate evaluation. The loop is exactly the
per-key outcome recursion loadKeysSpecM. -/
theorem c6_metered_load_key_outcomes (b : BucketSnapshot)
    (keys : List LedgerKey) (m : LedgerKeyMeter)
    (hb : b.Exact) (hwf : WFBucket b) (hs : SortedKeys keys) :
    b.loadKeysWithLimits keys (some m) [] [] =
      (if b.isEmpty then ⟨keys, [], some m, []⟩
       else loadKeysSpecM b keys m false) := by
  unfold BucketSnapshot.loadKeysWithLimits
  by_cases hemp : b.isEmpty = true
  · rw [if_pos hemp, if_pos hemp]
  · rw [if_neg hemp, if_neg hemp]
    have hpos : 0 < b.entries.length := by
      cases hE : b.entries with
      | nil =>
        rw [BucketSnapshot.isEmpty, hE] at hemp
        simp at hemp
      | cons a t => simp
    have hdec : decide (b.entries.length ≤ 0) = false :=
      decide_eq_false (by omega)
    have h := lkLoop_some hb hwf keys 0 m [] [] hs (by simp)
    rw [hdec] at h
    rw [h]
    simp

/-- Meter holding one transaction that reads accounts 1 and 2 with ample
quota. -/
def demoC6meter : LedgerKeyMeter :=
  ⟨[⟨[.account 1, .account 2], 1000⟩]⟩

/-- Bucket whose only record is a tombstone for account 1. -/
def demoC6bucket : BucketSnapshot :=
  mkBucket [.deadEntry (.account 1)]

/-- C6 counterexample to the claimed (a)/(b) dichotomy: with a generous
meter, the tombstoned key account 1 is removed from the pending set with
no charge at all (empty charge log, meter returned unchanged) — neither
the pre-read xdr_size(key) charge of (a) nor the xdr_size(entry) charge of
(b) happens — and the absent key account 2 is not removed but stays
pending. -/
theorem c6_counterexample_dead_key_uncharged :
    demoC6bucket.loadKeysWithLimits [.account 1, .account 2]
        (some demoC6meter) [] [] =
      ⟨[.account 2], [], some demoC6meter, []⟩ := by
  rfl

/-- Bucket with a live account and a live non-account entry. -/
def demoC6bucketW : BucketSnapshot :=
  mkBucket
    [.liveEntry (.account { accountID := 1, balance := 10,
                            inflationDest := none }),
     .liveEntry (.other 5 5 9)]

def demoC6keysW : List LedgerKey := [.account 1, .other 5 5]

/-- Meter where the transaction reading the non-account key has too little
quota even for the key itself, so the pre-read gate rejects it. -/
def demoC6meterW : LedgerKeyMeter :=
  ⟨[⟨[.account 1], 200⟩, ⟨[.other 5 5], 10⟩]⟩

theorem c6_metered_load_key_outcomes_witness :
    SortedKeys demoC6keysW ∧
    demoC6bucketW.loadKeysWithLimits demoC6keysW (some demoC6meterW)
        [] [] =
      (if demoC6bucketW.isEmpty then
        ⟨demoC6keysW, [], some demoC6meterW, []⟩
       else loadKeysSpecM demoC6bucketW demoC6keysW demoC6meterW false) :=
  ⟨by unfold SortedKeys; decide,
   c6_metered_load_key_outcomes demoC6bucketW demoC6keysW demoC6meterW
     (mkBucket_exact _) (by unfold WFBucket demoC6bucketW mkBucket; decide)
     (by unfold SortedKeys; decide)⟩
